import Mathlib

/-!
# dx12_multithread: frame submission pipeline

A shallow embedding of `src/entry/main.cpp` (`appUpdate`, the application loop and the
constant-buffer initialisation of `WinMain`) and of `src/utility/time_counter.cpp`
(`TimeContainer::add`, `TimeContainer::remove`).

* `uint32_t` values are natural numbers reduced modulo `2 ^ 32` after every arithmetic step.
* Calls into the Direct3D wrappers (`dx12/...`, not part of the embedded sources) are
  recorded as events of a trace; commands written into a command list are kept both in
  the trace and in the contents of the command list.
* `concurrency::parallel_for` runs its tasks one after the other in an order supplied
  from outside (`FrameInput.order`).
-/

namespace Dx12Multithread

/-! ## Constants and 32-bit arithmetic -/

/-- Number of values of a `uint32_t`. -/
def u32 : Nat := 2 ^ 32

/-- `constexpr uint32_t commandListNum = 4;` -/
def commandListNum : Nat := 4

/-- `constexpr uint32_t objectNum = 24000;` -/
def objectNum : Nat := 24000

/-- `auto start = index * (objectNum / commandListNum);` in `uint32_t` arithmetic
(`K` is `commandListNum`, `N` is `objectNum`). -/
def partStart (K N index : Nat) : Nat := (index * (N / K)) % u32

/-- `auto end = start + (objectNum / commandListNum);` in `uint32_t` arithmetic. -/
def partEnd (K N index : Nat) : Nat := (partStart K N index + N / K) % u32

/-! ## Command lists, recorded commands and events -/

/-- The command lists of `main.cpp`: `commandListBegin`, `commandLists[index]` and
`commandListEnd`. -/
inductive Recorder
  | commandListBegin
  | commandLists (index : Nat)
  | commandListEnd
  deriving DecidableEq, Repr

/-- Commands that `appUpdate` writes into a command list.  The wrappers
`FrameBuffer::startRendering`, `FrameBuffer::setToRenderTarget`,
`PipelineStateObject::setToCommandList`, `Mesh::setToCommandList`,
`ConstantBuffer::setToCommandList` and `FrameBuffer::finishRendering` live in headers
outside the embedded sources; each call is kept as one command. -/
inductive Cmd
  | startRendering
  | setToRenderTarget
  | psoSetToCommandList
  | meshSetToCommandList
  | constantBufferSetToCommandList (i : Nat)
  | drawIndexedInstanced (indexCountPerInstance instanceCount startIndexLocation
      baseVertexLocation startInstanceLocation : Nat)
  | finishRendering
  deriving DecidableEq, Repr

/-- Calls that `appUpdate` makes, in program order. -/
inductive Event
  | isEnd (result : Bool)
  | timeCheckBegin
  | timeCheckEnd
  | timePrint
  | reset (r : Recorder)
  | record (r : Recorder) (c : Cmd)
  | close (r : Recorder)
  | executeCommandLists (numCommandLists : Nat) (lists : List (Option Recorder))
  | present
  | updateBufferIndex (index : Nat)
  | fenceSignal (value : Nat)
  | queueSignal (value : Nat)
  | createEvent
  | setEventOnCompletion (value : Nat)
  | waitForSingleObject
  | closeHandle
  deriving DecidableEq, Repr

/-- What one call of `appUpdate` reads from outside the program: the answer of
`window::Window::instance().isEnd()`, the order in which `concurrency::parallel_for`
runs its tasks, and the value of `SwapChain::instance().currentBufferIndex()`. -/
structure FrameInput where
  isEnd : Bool
  order : List Nat
  currentBufferIndex : Nat
  deriving DecidableEq, Repr

/-- The globals of `main.cpp` that `appUpdate` changes: the contents of the command
lists, the batches handed to the command queue (each slot of a batch holds the contents
of the command list its pointer names, `none` for a slot never assigned), and the trace
of calls. -/
structure State where
  commandListBegin : List Cmd
  commandLists : List (List Cmd)
  commandListEnd : List Cmd
  queue : List (List (Option (List Cmd)))
  trace : List Event
  deriving DecidableEq, Repr

/-- State after the `create()` calls of `WinMain`: `K` empty body command lists. -/
def State.init (K : Nat) : State :=
  { commandListBegin := [], commandLists := List.replicate K [], commandListEnd := [],
    queue := [], trace := [] }

/-- Append a call to the trace. -/
def emit (e : Event) (s : State) : State := { s with trace := s.trace ++ [e] }

/-- Contents of a command list. -/
def State.content (s : State) : Recorder → List Cmd
  | .commandListBegin => s.commandListBegin
  | .commandLists i => s.commandLists.getD i []
  | .commandListEnd => s.commandListEnd

/-- Change the contents of one command list. -/
def setContent (r : Recorder) (f : List Cmd → List Cmd) (s : State) : State :=
  match r with
  | .commandListBegin => { s with commandListBegin := f s.commandListBegin }
  | .commandLists i => { s with commandLists := List.modify f i s.commandLists }
  | .commandListEnd => { s with commandListEnd := f s.commandListEnd }

/-- Modelled from the spec: `CommandList::reset` (`dx12/command_list.h`, not among the
embedded sources) discards the prior recording and returns the recorder to the recording
state. -/
def reset (r : Recorder) (s : State) : State :=
  emit (.reset r) (setContent r (fun _ => []) s)

/-- A wrapper or Direct3D call that writes command `c` into command list `r`. -/
def record (r : Recorder) (c : Cmd) (s : State) : State :=
  emit (.record r c) (setContent r (fun cs => cs ++ [c]) s)

/-- `commandList.get()->Close();` -/
def close (r : Recorder) (s : State) : State := emit (.close r) s

/-- The draw loop of a body task,
`for (auto i = start; i < end; ++i) { constantBuffer.setToCommandList(cl, i);
cl.get()->DrawIndexedInstanced(6, 1, 0, 0, 0); }`, with `i` a `uint32_t`.
The first argument after `e` bounds the number of iterations; `e - start` iterations
reach the exit test (`drawLoop_fuel`). -/
def drawLoop (r : Recorder) (e : Nat) : Nat → Nat → State → State
  | 0, _, s => s
  | fuel + 1, i, s =>
    if i < e then
      drawLoop r e fuel ((i + 1) % u32)
        (record r (.drawIndexedInstanced 6 1 0 0 0)
          (record r (.constantBufferSetToCommandList i) s))
    else s

/-- The lambda of the `parallel_for` in `appUpdate` (main.cpp lines 119-134). -/
def bodyTask (K N index : Nat) (s : State) : State :=
  let s := reset (.commandLists index) s
  let s := record (.commandLists index) .setToRenderTarget s
  let s := record (.commandLists index) .psoSetToCommandList s
  let s := record (.commandLists index) .meshSetToCommandList s
  let start := partStart K N index
  let end_ := partEnd K N index
  let s := drawLoop (.commandLists index) end_ (end_ - start) start s
  close (.commandLists index) s

/-- `concurrency::parallel_for<uint32_t>(0, commandListNum, f)`: every task runs to
completion, in the order `order` chosen by the scheduler, and the call returns when all
have finished. -/
def parallelFor {σ : Type} (order : List Nat) (f : Nat → σ → σ) (s : σ) : σ :=
  order.foldl (fun acc index => f index acc) s

/-- The array `lists` of `appUpdate` (main.cpp lines 146-155): `commandListNum + 2`
slots, unassigned at first (`none`), then slot `0`, slots `i + 1` for `i` from `0` up to
`commandListNum - 1` (the `int` counter does not overflow for `commandListNum < 2 ^ 31`),
and slot `commandListNum + 1`. -/
def buildLists (K : Nat) : List (Option Recorder) :=
  let lists : List (Option Recorder) := List.replicate (K + 2) none
  let lists := lists.set 0 (some .commandListBegin)
  let lists := (List.range K).foldl (fun l i => l.set (i + 1) (some (.commandLists i))) lists
  lists.set (K + 1) (some .commandListEnd)

/-- `commandQueue.get()->ExecuteCommandLists(lists.size(), lists.data());` -/
def executeCommandLists (lists : List (Option Recorder)) (s : State) : State :=
  emit (.executeCommandLists lists.length lists)
    { s with queue := s.queue ++ [lists.map (Option.map s.content)] }

/-- `bool appUpdate() noexcept` (main.cpp lines 102-184) for `commandListNum = K` and
`objectNum = N`.  `TIME_CHECK_SCORP` and `TIME_PRINT` are macros of
`utility/time_counter.h`; they appear as the events `timeCheckBegin`, `timeCheckEnd`
(end of the timed scope) and `timePrint`. -/
def appUpdate (K N : Nat) (inp : FrameInput) (s : State) : Bool × State :=
  let s := emit (.isEnd inp.isEnd) s
  if inp.isEnd then (false, s)
  else
    let s := emit .timeCheckBegin s
    let s := reset .commandListBegin s
    let s := record .commandListBegin .startRendering s
    let s := close .commandListBegin s
    let s := parallelFor inp.order (bodyTask K N) s
    let s := reset .commandListEnd s
    let s := record .commandListEnd .finishRendering s
    let s := close .commandListEnd s
    let s := executeCommandLists (buildLists K) s
    let s := emit .present s
    let s := emit (.updateBufferIndex inp.currentBufferIndex) s
    let s := emit .timeCheckEnd s
    let s := emit .timePrint s
    let s := emit (.fenceSignal 0) s
    let s := emit (.queueSignal 1) s
    let s := emit .createEvent s
    let s := emit (.setEventOnCompletion 1) s
    let s := emit .waitForSingleObject s
    let s := emit .closeHandle s
    (true, s)

/-- The application loop `while (appUpdate()) { }` of `WinMain`, started at frame `j`;
`env j` is what frame `j` reads from outside.  The first argument bounds the number of
calls of `appUpdate`; `none` means the bound was reached before a call returned
`false`. -/
def appLoop (K N : Nat) (env : Nat → FrameInput) : Nat → Nat → State → Option State
  | 0, _, _ => none
  | fuel + 1, j, s =>
    match appUpdate K N (env j) s with
    | (true, s1) => appLoop K N env fuel (j + 1) s1
    | (false, s1) => some s1

/-- The loop `for (auto i = start; i < end; ++i) { constantBuffer[i] = ...; }` of the
start-up `parallel_for` in `WinMain` (main.cpp lines 242-246); the state is the list of
indices written so far, the first argument after `e` bounds the number of iterations
(`initLoop_fuel`). -/
def initLoop (e : Nat) : Nat → Nat → List Nat → List Nat
  | 0, _, w => w
  | fuel + 1, i, w =>
    if i < e then initLoop e fuel ((i + 1) % u32) (w ++ [i]) else w

/-- The lambda of the start-up `parallel_for` in `WinMain` (main.cpp lines 239-247). -/
def initTask (K N index : Nat) (w : List Nat) : List Nat :=
  let start := partStart K N index
  let end_ := partEnd K N index
  initLoop end_ (end_ - start) start w

/-- Indices of `constantBuffer` written by the start-up `parallel_for` of `WinMain`. -/
def initConstantBuffer (K N : Nat) (order : List Nat) : List Nat :=
  parallelFor order (initTask K N) []

/-! ## Projections of traces and recordings -/

/-- The values the fence is set to, in program order: `fence->Signal(v)` on the CPU side
and `commandQueue->Signal(fence, v)` on the queue side. -/
def fenceValues : List Event → List Nat
  | [] => []
  | .fenceSignal v :: es => v :: fenceValues es
  | .queueSignal v :: es => v :: fenceValues es
  | _ :: es => fenceValues es

/-- Is the command a draw call (`DrawIndexedInstanced`)? -/
def Cmd.isDraw : Cmd → Bool
  | .drawIndexedInstanced _ _ _ _ _ => true
  | _ => false

/-- Object indices bound by `constantBuffer.setToCommandList`, in stream order. -/
def boundIndices : List Cmd → List Nat
  | [] => []
  | .constantBufferSetToCommandList i :: cs => i :: boundIndices cs
  | _ :: cs => boundIndices cs

/-- The command stream of a submitted batch: its recordings one after the other, in
array order (an unassigned slot contributes nothing). -/
def stream (batch : List (Option (List Cmd))) : List Cmd :=
  (batch.map (fun o => o.getD [])).flatten

/-! ## Closed forms of recordings and traces -/

/-- Write the commands `cs` into command list `r`, one call after the other. -/
def recordAll (r : Recorder) (cs : List Cmd) (s : State) : State :=
  cs.foldl (fun acc c => record r c acc) s

/-- Commands of `n` consecutive iterations of the draw loop, the first for object `i`. -/
def drawCmds : Nat → Nat → List Cmd
  | _, 0 => []
  | i, n + 1 =>
    .constantBufferSetToCommandList i :: .drawIndexedInstanced 6 1 0 0 0 :: drawCmds (i + 1) n

/-- What body task `k` writes into `commandLists[k]`. -/
def bodyRecording (K N k : Nat) : List Cmd :=
  [.setToRenderTarget, .psoSetToCommandList, .meshSetToCommandList] ++
    drawCmds (partStart K N k) (partEnd K N k - partStart K N k)

/-- The calls of body task `k`. -/
def bodyTrace (K N k : Nat) : List Event :=
  .reset (.commandLists k) ::
    ((bodyRecording K N k).map (fun c => Event.record (.commandLists k) c) ++
      [.close (.commandLists k)])

/-- Phase 1 (begin): main.cpp lines 110-115. -/
def phase1 : List Event :=
  [.reset .commandListBegin, .record .commandListBegin .startRendering,
   .close .commandListBegin]

/-- Phase 2 (parallel body): main.cpp lines 117-135, tasks run in the order `order`. -/
def phase2 (K N : Nat) (order : List Nat) : List Event :=
  (order.map (bodyTrace K N)).flatten

/-- Phase 3 (end): main.cpp lines 137-142. -/
def phase3 : List Event :=
  [.reset .commandListEnd, .record .commandListEnd .finishRendering,
   .close .commandListEnd]

/-- Phase 4 (submission, present, buffer index update): main.cpp lines 144-163. -/
def phase4 (K : Nat) (currentBufferIndex : Nat) : List Event :=
  [.executeCommandLists (K + 2) (buildLists K), .present,
   .updateBufferIndex currentBufferIndex]

/-- Phase 5 (fence signal and wait): main.cpp lines 169-181. -/
def phase5 : List Event :=
  [.fenceSignal 0, .queueSignal 1, .createEvent, .setEventOnCompletion 1,
   .waitForSingleObject, .closeHandle]

/-- The calls of one full frame. -/
def frameTrace (K N : Nat) (inp : FrameInput) : List Event :=
  [.isEnd false, .timeCheckBegin] ++ phase1 ++ phase2 K N inp.order ++ phase3 ++
    phase4 K inp.currentBufferIndex ++ [.timeCheckEnd, .timePrint] ++ phase5

/-- The recordings of one frame in submission order. -/
def frameBatch (K N : Nat) : List (Option (List Cmd)) :=
  some [Cmd.startRendering] ::
    ((List.range K).map (fun k => some (bodyRecording K N k)) ++
      [some [Cmd.finishRendering]])

/-- Is the event the query `isEnd()` at the top of `appUpdate`? -/
def Event.isIsEnd : Event → Bool
  | .isEnd _ => true
  | _ => false

/-- Is the event a submission (`ExecuteCommandLists`)? -/
def Event.isExecute : Event → Bool
  | .executeCommandLists _ _ => true
  | _ => false

/-- Body command lists after the tasks have run in the order `order`. -/
def bodiesAfter (K N : Nat) (order : List Nat) (l : List (List Cmd)) : List (List Cmd) :=
  order.foldl (fun acc k => List.modify (fun _ => bodyRecording K N k) k acc) l

/-- State after `n` consecutive full calls of `appUpdate`, the first for frame `j`. -/
def runFrames (K N : Nat) (env : Nat → FrameInput) : Nat → Nat → State → State
  | 0, _, s => s
  | n + 1, j, s => runFrames K N env n (j + 1) (appUpdate K N (env j) s).2

/-- The calls of `n` consecutive full frames, the first being frame `j`. -/
def framesTrace (K N : Nat) (env : Nat → FrameInput) : Nat → Nat → List Event
  | 0, _ => []
  | n + 1, j => frameTrace K N (env j) ++ framesTrace K N env n (j + 1)

/-- A run of the window used in examples: `isEnd()` answers `true` from frame `2` on,
the four body tasks run in the order `2, 0, 3, 1`, and the swap chain alternates between
its two buffers. -/
def sampleEnv (j : Nat) : FrameInput :=
  { isEnd := decide (2 ≤ j), order := [2, 0, 3, 1], currentBufferIndex := (j + 1) % 2 }

/-- Is the event a draw call written into some command list? -/
def Event.isDrawCall : Event → Bool
  | .record _ c => c.isDraw
  | _ => false

/-- Is the event a draw call written into command list `r`? -/
def Event.isDrawOn (r : Recorder) : Event → Bool
  | .record r1 c => decide (r1 = r) && c.isDraw
  | _ => false

/-- Is the event the fence wait `WaitForSingleObject(event, INFINITE)`? -/
def Event.isWait : Event → Bool
  | .waitForSingleObject => true
  | _ => false

/-- The calls of a full frame after the query: phases 1 to 3. -/
def frameRecording (K N : Nat) (order : List Nat) : List Event :=
  .timeCheckBegin :: (phase1 ++ phase2 K N order ++ phase3)

/-- The calls of a full frame from the submission on: phases 4 and 5. -/
def frameSubmission (K : Nat) (currentBufferIndex : Nat) : List Event :=
  phase4 K currentBufferIndex ++ [.timeCheckEnd, .timePrint] ++ phase5

/-- Every draw call of the stream `l` is `DrawIndexedInstanced(6, 1, 0, 0, 0)` and comes
right after the binding of the per-object record whose index is the number of draws made
before it, counted from `n`. -/
def DrawsBound (n : Nat) (l : List Cmd) : Prop :=
  ∀ pre c post, l = pre ++ c :: post → c.isDraw = true →
    c = .drawIndexedInstanced 6 1 0 0 0 ∧
    ∃ pre1, pre = pre1 ++ [.constantBufferSetToCommandList (n + pre.countP Cmd.isDraw)]

/-! ## `utility::TimeContainer` (time_counter.cpp) -/

/-- The characters that `tag.data()` denotes when it is read as a C string: those of the
view up to its first NUL (for a view without NUL the terminator lies right behind it). -/
def cstr (tag : String) : String :=
  String.mk (tag.data.takeWhile (fun ch => ch != Char.ofNat 0))

/-- The member `container_` of `TimeContainer`.  Its declaration is in
`utility/time_counter.h`, which is not among the embedded sources; `time_counter.cpp`
uses it as a standard map from `std::string` to `double` (`find`, `insert`, `erase`,
`clear`, `x.first.c_str()`, `x.second`).  It is kept as a list of entries with distinct
keys (`Keyed`); the value type `α` and its `+` stand for `double` and `+=`. -/
abbrev TimeContainer (α : Type) := List (String × α)

/-- The keys of a map are distinct. -/
def Keyed {α : Type} (c : TimeContainer α) : Prop := (c.map Prod.fst).Nodup

/-- `TimeContainer::TimeContainer()`: `container_.clear();` -/
def TimeContainer.empty {α : Type} : TimeContainer α := []

/-- `container_.find(key)`: the value of the entry with that key, if there is one. -/
def TimeContainer.find {α : Type} : TimeContainer α → String → Option α
  | [], _ => none
  | (k, v) :: rest, key => if k = key then some v else TimeContainer.find rest key

/-- `container_.insert(std::make_pair(key, v))`: a map keeps an entry it already has. -/
def TimeContainer.insert {α : Type} (c : TimeContainer α) (key : String) (v : α) :
    TimeContainer α :=
  match c.find key with
  | some _ => c
  | none => c ++ [(key, v)]

/-- `it->second += microsec;` for the iterator `it` returned by `find(key)`. -/
def TimeContainer.addAt {α : Type} [Add α] : TimeContainer α → String → α → TimeContainer α
  | [], _, _ => []
  | (k, v) :: rest, key, x =>
    if k = key then (k, v + x) :: rest else (k, v) :: TimeContainer.addAt rest key x

/-- `container_.erase(key)`. -/
def TimeContainer.erase {α : Type} (c : TimeContainer α) (key : String) : TimeContainer α :=
  c.filter (fun p => p.1 != key)

/-- `void TimeContainer::add(std::string_view tag, double microsec)` (lines 47-55): the
look-up goes through `tag.data()`, the insertion through the view itself. -/
def TimeContainer.add {α : Type} [Add α] (c : TimeContainer α) (tag : String) (microsec : α) :
    TimeContainer α :=
  match c.find (cstr tag) with
  | none => c.insert tag microsec
  | some _ => c.addAt (cstr tag) microsec

/-- `void TimeContainer::remove(std::string_view tag)` (lines 62-64). -/
def TimeContainer.remove {α : Type} (c : TimeContainer α) (tag : String) : TimeContainer α :=
  c.erase (cstr tag)

/-- A sequence of `add` calls on a container. -/
def TimeContainer.addAll {α : Type} [Add α] (c : TimeContainer α) (calls : List (String × α)) :
    TimeContainer α :=
  calls.foldl (fun acc p => acc.add p.1 p.2) c

/-- The amounts passed under `tag` in a sequence of calls, in call order. -/
def amounts {α : Type} (calls : List (String × α)) (tag : String) : List α :=
  (calls.filter (fun p => p.1 == tag)).map Prod.snd

/-- Accumulate amounts onto what is stored: the first amount is stored as it is, each
later one is added with `+=`; nothing is stored when there is no amount. -/
def accumulate {α : Type} [Add α] : Option α → List α → Option α
  | o, [] => o
  | none, x :: xs => accumulate (some x) xs
  | some v, x :: xs => accumulate (some (v + x)) xs

/-! ## Partition arithmetic -/

theorem mul_div_le_of_lt {K N k : Nat} (hk : k < K) : k * (N / K) + N / K ≤ N := by
  have h1 : (k + 1) * (N / K) ≤ K * (N / K) := Nat.mul_le_mul_right _ hk
  have h2 : K * (N / K) ≤ N := Nat.mul_div_le N K
  have h3 : (k + 1) * (N / K) = k * (N / K) + N / K := by ring
  generalize N / K = q at *
  omega

theorem partStart_eq {K N k : Nat} (hN : N < u32) (hk : k < K) :
    partStart K N k = k * (N / K) := by
  have := mul_div_le_of_lt (N := N) hk
  unfold partStart
  apply Nat.mod_eq_of_lt
  generalize N / K = q at *
  omega

theorem partEnd_eq {K N k : Nat} (hN : N < u32) (hk : k < K) :
    partEnd K N k = k * (N / K) + N / K := by
  have := mul_div_le_of_lt (N := N) hk
  unfold partEnd
  rw [partStart_eq hN hk]
  apply Nat.mod_eq_of_lt
  generalize N / K = q at *
  omega

/-- C1: for every `K ≥ 1` dividing a 32-bit `objectNum`, the `K` ranges
`[start_k, end_k)` of `appUpdate` are computed without 32-bit overflow, are contiguous
(`end_k = start_{k+1}`, the first starts at `0`, the last ends at `objectNum`), every
index of `[0, objectNum)` lies in exactly one of them and no range leaves
`[0, objectNum)`; the program's constants `K = 4`, `objectNum = 24000` are an instance. -/
theorem C1_partition_contiguous_cover (K N : Nat) (hK : 1 ≤ K) (hN : N < u32)
    (hdvd : K ∣ N) :
    (∀ k, k < K → k * (N / K) < u32 ∧ partStart K N k + N / K < u32) ∧
    partStart K N 0 = 0 ∧
    partEnd K N (K - 1) = N ∧
    (∀ k, k + 1 < K → partEnd K N k = partStart K N (k + 1)) ∧
    (∀ k, k < K → partStart K N k ≤ partEnd K N k ∧ partEnd K N k ≤ N) ∧
    (∀ i, i < N → ∃ k, k < K ∧ (partStart K N k ≤ i ∧ i < partEnd K N k) ∧
        ∀ k2, k2 < K → partStart K N k2 ≤ i → i < partEnd K N k2 → k2 = k) ∧
    (∀ k1 k2 i, k1 < K → k2 < K → k1 ≠ k2 →
        partStart K N k1 ≤ i → i < partEnd K N k1 →
        ¬ (partStart K N k2 ≤ i ∧ i < partEnd K N k2)) ∧
    (4 ∣ objectNum ∧ commandListNum = 4 ∧ objectNum < u32) := by
  have hmul : K * (N / K) = N := Nat.mul_div_cancel' hdvd
  have huniq : ∀ k1 k2 i, k1 < K → k2 < K →
      partStart K N k1 ≤ i → i < partEnd K N k1 →
      partStart K N k2 ≤ i → i < partEnd K N k2 → k1 = k2 := by
    intro k1 k2 i h1 h2 a1 b1 a2 b2
    rw [partStart_eq hN h1] at a1
    rw [partEnd_eq hN h1] at b1
    rw [partStart_eq hN h2] at a2
    rw [partEnd_eq hN h2] at b2
    by_contra hne
    generalize N / K = q at *
    rcases Nat.lt_or_gt_of_ne hne with h | h
    · have : (k1 + 1) * q ≤ k2 * q := Nat.mul_le_mul_right _ h
      have e : (k1 + 1) * q = k1 * q + q := by ring
      omega
    · have : (k2 + 1) * q ≤ k1 * q := Nat.mul_le_mul_right _ h
      have e : (k2 + 1) * q = k2 * q + q := by ring
      omega
  refine ⟨?_, ?_, ?_, ?_, ?_, ?_, ?_, ?_⟩
  · intro k hk
    have := mul_div_le_of_lt (N := N) hk
    rw [partStart_eq hN hk]
    generalize N / K = q at *
    omega
  · simp [partStart]
  · have hk : K - 1 < K := by omega
    rw [partEnd_eq hN hk]
    have e : (K - 1 + 1) * (N / K) = (K - 1) * (N / K) + N / K := by ring
    have e2 : K - 1 + 1 = K := by omega
    rw [e2] at e
    generalize N / K = q at *
    omega
  · intro k hk
    rw [partEnd_eq hN (by omega : k < K), partStart_eq hN hk]
    ring
  · intro k hk
    have := mul_div_le_of_lt (N := N) hk
    rw [partStart_eq hN hk, partEnd_eq hN hk]
    generalize N / K = q at *
    omega
  · intro i hi
    have hpos : 0 < N / K := by
      rcases Nat.eq_zero_or_pos (N / K) with h | h
      · rw [h] at hmul; omega
      · exact h
    have hkK : i / (N / K) < K := by
      apply Nat.div_lt_of_lt_mul
      rw [Nat.mul_comm]; omega
    have hlo : i / (N / K) * (N / K) ≤ i := Nat.div_mul_le_self i (N / K)
    have hhi : i < i / (N / K) * (N / K) + N / K := by
      have := Nat.lt_div_mul_add hpos (a := i)
      omega
    have hin : partStart K N (i / (N / K)) ≤ i ∧ i < partEnd K N (i / (N / K)) := by
      rw [partStart_eq hN hkK, partEnd_eq hN hkK]
      exact ⟨hlo, hhi⟩
    refine ⟨i / (N / K), hkK, hin, ?_⟩
    intro k2 hk2 a2 b2
    exact huniq k2 _ i hk2 hkK a2 b2 hin.1 hin.2
  · intro k1 k2 i h1 h2 hne a1 b1 hcon
    exact hne (huniq k1 k2 i h1 h2 a1 b1 hcon.1 hcon.2)
  · refine ⟨by decide, rfl, by decide⟩

/-- Witness of C1 at the constants of the program. -/
theorem C1_partition_contiguous_cover_witness :
    (∀ k, k < 4 → k * (24000 / 4) < u32 ∧ partStart 4 24000 k + 24000 / 4 < u32) ∧
    partStart 4 24000 0 = 0 ∧
    partEnd 4 24000 (4 - 1) = 24000 ∧
    (∀ k, k + 1 < 4 → partEnd 4 24000 k = partStart 4 24000 (k + 1)) ∧
    (∀ k, k < 4 → partStart 4 24000 k ≤ partEnd 4 24000 k ∧ partEnd 4 24000 k ≤ 24000) ∧
    (∀ i, i < 24000 → ∃ k, k < 4 ∧ (partStart 4 24000 k ≤ i ∧ i < partEnd 4 24000 k) ∧
        ∀ k2, k2 < 4 → partStart 4 24000 k2 ≤ i → i < partEnd 4 24000 k2 → k2 = k) ∧
    (∀ k1 k2 i, k1 < 4 → k2 < 4 → k1 ≠ k2 →
        partStart 4 24000 k1 ≤ i → i < partEnd 4 24000 k1 →
        ¬ (partStart 4 24000 k2 ≤ i ∧ i < partEnd 4 24000 k2)) ∧
    (4 ∣ objectNum ∧ commandListNum = 4 ∧ objectNum < u32) :=
  C1_partition_contiguous_cover 4 24000 (by decide) (by decide) (by decide)

/-! ## Effect of the recording calls -/

theorem setContent_comp (r : Recorder) (f g : List Cmd → List Cmd) (s : State) :
    setContent r f (setContent r g s) = setContent r (f ∘ g) s := by
  cases r with
  | commandListBegin => rfl
  | commandLists i => simp [setContent, List.modify_modify_eq]
  | commandListEnd => rfl

theorem setContent_emit (r : Recorder) (f : List Cmd → List Cmd) (e : Event) (s : State) :
    setContent r f (emit e s) = emit e (setContent r f s) := by
  cases r <;> rfl

theorem recordAll_nil (r : Recorder) (s : State) : recordAll r [] s = s := rfl

theorem recordAll_cons (r : Recorder) (c : Cmd) (cs : List Cmd) (s : State) :
    recordAll r (c :: cs) s = recordAll r cs (record r c s) := rfl

theorem recordAll_append (r : Recorder) (cs ds : List Cmd) (s : State) :
    recordAll r (cs ++ ds) s = recordAll r ds (recordAll r cs s) := by
  simp [recordAll, List.foldl_append]

/-- Writing a list of commands appends it to the contents and to the trace. -/
theorem recordAll_eq (r : Recorder) (cs : List Cmd) (s : State) :
    recordAll r cs s =
      { setContent r (fun old => old ++ cs) s with
        trace := s.trace ++ cs.map (fun c => Event.record r c) } := by
  induction cs generalizing s with
  | nil =>
    have h : (fun old : List Cmd => old) = id := rfl
    cases r <;> simp [recordAll_nil, setContent, h]
  | cons c cs ih =>
    rw [recordAll_cons, ih]
    have h : ((fun old : List Cmd => old ++ cs) ∘ fun old => old ++ [c]) =
        fun old => old ++ c :: cs := by funext x; simp
    simp only [record, setContent_emit, setContent_comp, h]
    cases r <;> simp [emit, setContent]

/-- The bound `e - i` on the iterations of the draw loop is never the reason the loop
stops: any larger bound gives the same result. -/
theorem drawLoop_fuel (r : Recorder) (e : Nat) (he : e < u32) :
    ∀ (fuel i : Nat) (s : State), e - i ≤ fuel →
      drawLoop r e fuel i s = drawLoop r e (e - i) i s := by
  intro fuel
  induction fuel with
  | zero =>
    intro i s h
    have : e - i = 0 := by omega
    rw [this]
  | succ f ih =>
    intro i s h
    by_cases hlt : i < e
    · have h1 : e - i = (e - (i + 1)) + 1 := by omega
      have hm : (i + 1) % u32 = i + 1 := Nat.mod_eq_of_lt (by omega)
      rw [h1]
      simp only [drawLoop, hlt, if_true, hm]
      exact ih _ _ (by omega)
    · have : e - i = 0 := by omega
      rw [this]
      simp [drawLoop, hlt]

/-- The draw loop writes `drawCmds`. -/
theorem drawLoop_eq (r : Recorder) (e : Nat) (he : e < u32) :
    ∀ (n i : Nat) (s : State), i + n ≤ e →
      drawLoop r e n i s = recordAll r (drawCmds i n) s := by
  intro n
  induction n with
  | zero => intro i s _; rfl
  | succ n ih =>
    intro i s h
    have hlt : i < e := by omega
    have hm : (i + 1) % u32 = i + 1 := Nat.mod_eq_of_lt (by omega)
    simp only [drawLoop, hlt, if_true, hm, drawCmds, recordAll_cons]
    exact ih _ _ (by omega)

theorem partEnd_lt (K N k : Nat) : partEnd K N k < u32 :=
  Nat.mod_lt _ (by decide)

/-- Closed form of a body task. -/
theorem bodyTask_eq (K N k : Nat) (s : State) :
    bodyTask K N k s =
      { setContent (.commandLists k) (fun _ => bodyRecording K N k) s with
        trace := s.trace ++ bodyTrace K N k } := by
  have hloop := drawLoop_eq (.commandLists k) (partEnd K N k) (partEnd_lt K N k)
    (partEnd K N k - partStart K N k) (partStart K N k)
  by_cases hle : partStart K N k ≤ partEnd K N k
  · unfold bodyTask
    simp only
    rw [hloop _ (by omega)]
    have e3 : ∀ t : State, record (.commandLists k) .meshSetToCommandList
        (record (.commandLists k) .psoSetToCommandList
          (record (.commandLists k) .setToRenderTarget t)) =
        recordAll (.commandLists k)
          [.setToRenderTarget, .psoSetToCommandList, .meshSetToCommandList] t := by
      intro t; rfl
    rw [e3, ← recordAll_append, recordAll_eq]
    simp [close, reset, emit, setContent, bodyTrace, bodyRecording, List.modify_modify_eq]
    congr 1
  · have h0 : partEnd K N k - partStart K N k = 0 := by omega
    unfold bodyTask
    simp only [h0, drawLoop]
    simp [close, reset, record, emit, setContent, bodyTrace, bodyRecording, h0, drawCmds,
      List.modify_modify_eq]
    congr 1

/-! ## The parallel body phase -/

theorem parallelFor_bodyTask (K N : Nat) (order : List Nat) (s : State) :
    parallelFor order (bodyTask K N) s =
      { s with commandLists := bodiesAfter K N order s.commandLists,
               trace := s.trace ++ phase2 K N order } := by
  induction order generalizing s with
  | nil => simp [parallelFor, bodiesAfter, phase2]
  | cons k ks ih =>
    have h : parallelFor (k :: ks) (bodyTask K N) s =
        parallelFor ks (bodyTask K N) (bodyTask K N k s) := rfl
    rw [h, ih, bodyTask_eq]
    simp [setContent, bodiesAfter, phase2]

theorem bodiesAfter_getElem? (K N : Nat) (order : List Nat) (l : List (List Cmd)) (j : Nat) :
    (bodiesAfter K N order l)[j]? =
      if j ∈ order then (if j < l.length then some (bodyRecording K N j) else none)
      else l[j]? := by
  induction order generalizing l with
  | nil => simp [bodiesAfter]
  | cons k ks ih =>
    have h : bodiesAfter K N (k :: ks) l =
        bodiesAfter K N ks (List.modify (fun _ => bodyRecording K N k) k l) := rfl
    rw [h, ih, List.length_modify]
    by_cases hj : j ∈ ks
    · simp [hj]
    · by_cases hk : j = k
      · subst hk
        simp [hj, List.getElem?_modify]
        by_cases hl : j < l.length
        · simp [hl]
        · have hn : l[j]? = none := List.getElem?_eq_none (by omega)
          simp [hl, hn]
      · have hk2 : k ≠ j := fun h => hk h.symm
        simp [hj, hk, List.getElem?_modify_ne _ _ hk2]

theorem bodiesAfter_perm (K N : Nat) (order : List Nat) (l : List (List Cmd))
    (hperm : order.Perm (List.range K)) (hl : l.length = K) :
    bodiesAfter K N order l = (List.range K).map (bodyRecording K N) := by
  apply List.ext_getElem?
  intro j
  rw [bodiesAfter_getElem?]
  by_cases hj : j < K
  · have : j ∈ order := (hperm.mem_iff).2 (List.mem_range.2 hj)
    simp [this, hl, hj, List.getElem?_range]
  · have : j ∉ order := fun h => hj (List.mem_range.1 ((hperm.mem_iff).1 h))
    have hn : l[j]? = none := List.getElem?_eq_none (by omega)
    have hr : (List.range K)[j]? = none := List.getElem?_eq_none (by simp; omega)
    simp [this, hn, hr]

/-! ## The submission array and one call of `appUpdate` -/

theorem foldl_set_length (is : List Nat) (l : List (Option Recorder)) :
    (is.foldl (fun acc i => acc.set (i + 1) (some (Recorder.commandLists i))) l).length =
      l.length := by
  induction is generalizing l with
  | nil => rfl
  | cons i is ih => simp [List.foldl_cons, ih]

theorem foldl_set_getElem? (is : List Nat) (l : List (Option Recorder)) (j : Nat) :
    (is.foldl (fun acc i => acc.set (i + 1) (some (Recorder.commandLists i))) l)[j]? =
      if j - 1 ∈ is ∧ 1 ≤ j ∧ j < l.length then some (some (Recorder.commandLists (j - 1)))
      else l[j]? := by
  induction is generalizing l with
  | nil => simp
  | cons i is ih =>
    rw [List.foldl_cons, ih, List.length_set]
    by_cases h1 : j - 1 ∈ is ∧ 1 ≤ j ∧ j < l.length
    · have h2 : j - 1 ∈ i :: is ∧ 1 ≤ j ∧ j < l.length :=
        ⟨List.mem_cons_of_mem _ h1.1, h1.2⟩
      rw [if_pos h1, if_pos h2]
    · rw [if_neg h1, List.getElem?_set]
      by_cases h3 : i + 1 = j
      · subst h3
        by_cases h4 : i + 1 < l.length
        · simp [h4]
        · have hn : l[i + 1]? = none := List.getElem?_eq_none (by omega)
          simp [h4, hn]
      · rw [if_neg h3]
        have h5 : ¬ (j - 1 ∈ i :: is ∧ 1 ≤ j ∧ j < l.length) := by
          rintro ⟨hm, hj1, hj2⟩
          rcases List.mem_cons.1 hm with h | h
          · omega
          · exact h1 ⟨h, hj1, hj2⟩
        rw [if_neg h5]

/-- The array `lists` holds begin, the body command lists in index order, end. -/
theorem buildLists_eq (K : Nat) :
    buildLists K = some Recorder.commandListBegin ::
      ((List.range K).map (fun i => some (Recorder.commandLists i)) ++
        [some Recorder.commandListEnd]) := by
  apply List.ext_getElem?
  intro j
  unfold buildLists
  simp only [List.getElem?_set, foldl_set_length, foldl_set_getElem?, List.length_set,
    List.length_replicate, List.mem_range]
  rcases j with _ | j
  · simp
  · rw [List.getElem?_cons_succ, List.getElem?_append]
    simp only [List.length_map, List.length_range]
    by_cases h1 : j < K
    · have hr : (List.range K)[j]? = some j := List.getElem?_range h1
      have hne : ¬ (K + 1 = j + 1) := by omega
      simp [h1, hr, hne]
      omega
    · by_cases h2 : j = K
      · subst h2
        simp
      · have hne : ¬ (K + 1 = j + 1) := by omega
        have hz : j - K = (j - K - 1) + 1 := by omega
        simp [h1, hne, List.getElem?_replicate]
        rw [hz]
        simp
        omega

theorem appUpdate_end (K N : Nat) (inp : FrameInput) (s : State) (h : inp.isEnd = true) :
    appUpdate K N inp s = (false, emit (.isEnd true) s) := by
  simp [appUpdate, h]

/-- Closed form of a full frame. -/
theorem appUpdate_frame (K N : Nat) (inp : FrameInput) (s : State)
    (h : inp.isEnd = false) :
    appUpdate K N inp s =
      (true,
        { commandListBegin := [Cmd.startRendering],
          commandLists := bodiesAfter K N inp.order s.commandLists,
          commandListEnd := [Cmd.finishRendering],
          queue := s.queue ++
            [some [Cmd.startRendering] ::
              ((List.range K).map (fun i =>
                  some ((bodiesAfter K N inp.order s.commandLists).getD i [])) ++
                [some [Cmd.finishRendering]])],
          trace := s.trace ++ frameTrace K N inp }) := by
  simp only [appUpdate, h, parallelFor_bodyTask, buildLists_eq]
  simp [emit, reset, record, close, setContent, executeCommandLists, State.content,
    frameTrace, phase1, phase3, phase4, phase5, buildLists_eq, Function.comp_def]

/-! ## The application loop -/

/-- The loop stops at the first frame whose `isEnd()` answers `true`. -/
theorem appLoop_stops (K N : Nat) (env : Nat → FrameInput) :
    ∀ (n fuel j : Nat) (s : State), (∀ i, i < n → (env (j + i)).isEnd = false) →
      (env (j + n)).isEnd = true → n < fuel →
      appLoop K N env fuel j s = some (emit (.isEnd true) (runFrames K N env n j s)) := by
  intro n
  induction n with
  | zero =>
    intro fuel j s _ hend hf
    obtain ⟨f, rfl⟩ : ∃ f, fuel = f + 1 := ⟨fuel - 1, by omega⟩
    simp [appLoop, runFrames, appUpdate_end K N (env j) s (by simpa using hend)]
  | succ n ih =>
    intro fuel j s hrun hend hf
    obtain ⟨f, rfl⟩ : ∃ f, fuel = f + 1 := ⟨fuel - 1, by omega⟩
    have h0 : (env j).isEnd = false := by simpa using hrun 0 (by omega)
    have hstep := appUpdate_frame K N (env j) s h0
    have hrec := ih f (j + 1) (appUpdate K N (env j) s).2
      (fun i hi => by
        have := hrun (i + 1) (by omega)
        rwa [show j + 1 + i = j + (i + 1) by omega])
      (by rwa [show j + 1 + n = j + (n + 1) by omega]) (by omega)
    simp only [appLoop, runFrames]
    rw [hstep] at hrec ⊢
    exact hrec

/-- The loop does not stop while `isEnd()` answers `false`. -/
theorem appLoop_running (K N : Nat) (env : Nat → FrameInput) :
    ∀ (fuel j : Nat) (s : State), (∀ i, i < fuel → (env (j + i)).isEnd = false) →
      appLoop K N env fuel j s = none := by
  intro fuel
  induction fuel with
  | zero => intro j s _; rfl
  | succ f ih =>
    intro j s hrun
    have h0 : (env j).isEnd = false := by simpa using hrun 0 (by omega)
    have hstep := appUpdate_frame K N (env j) s h0
    simp only [appLoop]
    rw [hstep]
    exact ih (j + 1) _ (fun i hi => by
      have := hrun (i + 1) (by omega)
      rwa [show j + 1 + i = j + (i + 1) by omega])

theorem runFrames_trace (K N : Nat) (env : Nat → FrameInput) :
    ∀ (n j : Nat) (s : State), (∀ i, i < n → (env (j + i)).isEnd = false) →
      (runFrames K N env n j s).trace = s.trace ++ framesTrace K N env n j := by
  intro n
  induction n with
  | zero => intro j s _; simp [runFrames, framesTrace]
  | succ n ih =>
    intro j s hrun
    have h0 : (env j).isEnd = false := by simpa using hrun 0 (by omega)
    simp only [runFrames, framesTrace]
    rw [ih (j + 1) _ (fun i hi => by
      have := hrun (i + 1) (by omega)
      rwa [show j + 1 + i = j + (i + 1) by omega])]
    rw [appUpdate_frame K N (env j) s h0]
    simp

theorem runFrames_queue_length (K N : Nat) (env : Nat → FrameInput) :
    ∀ (n j : Nat) (s : State), (∀ i, i < n → (env (j + i)).isEnd = false) →
      (runFrames K N env n j s).queue.length = s.queue.length + n := by
  intro n
  induction n with
  | zero => intro j s _; simp [runFrames]
  | succ n ih =>
    intro j s hrun
    have h0 : (env j).isEnd = false := by simpa using hrun 0 (by omega)
    simp only [runFrames]
    rw [ih (j + 1) _ (fun i hi => by
      have := hrun (i + 1) (by omega)
      rwa [show j + 1 + i = j + (i + 1) by omega])]
    rw [appUpdate_frame K N (env j) s h0]
    simp
    omega

/-- C5: a call of `appUpdate` that sees the window closed returns `false` and does
nothing but the query (no reset, recording, submission, present or fence operation);
any other call returns `true` after performing phases 1 to 5 in that order, with exactly
one submission; the loop `while (appUpdate())` started in state `s` stops exactly at the
first frame `n` whose query answers `true`, after `n` full frames and `n` submissions,
and does not stop within `n` calls or fewer. -/
theorem C5_no_partial_frame (K N : Nat) (env : Nat → FrameInput) (n : Nat) (s : State)
    (hrun : ∀ i, i < n → (env i).isEnd = false) (hend : (env n).isEnd = true) :
    (∀ inp t, inp.isEnd = true → appUpdate K N inp t = (false, emit (.isEnd true) t)) ∧
    (∀ inp t, inp.isEnd = false →
      (appUpdate K N inp t).1 = true ∧
      (appUpdate K N inp t).2.trace =
        t.trace ++ ([.isEnd false, .timeCheckBegin] ++ phase1 ++ phase2 K N inp.order ++
          phase3 ++ phase4 K inp.currentBufferIndex ++ [.timeCheckEnd, .timePrint] ++
          phase5) ∧
      (appUpdate K N inp t).2.queue.length = t.queue.length + 1) ∧
    (∀ fuel, n < fuel → ∃ s1, appLoop K N env fuel 0 s = some s1 ∧
      s1.trace = s.trace ++ framesTrace K N env n 0 ++ [.isEnd true] ∧
      s1.queue.length = s.queue.length + n) ∧
    (∀ fuel, fuel ≤ n → appLoop K N env fuel 0 s = none) := by
  have hrun0 : ∀ i, i < n → (env (0 + i)).isEnd = false := by
    intro i hi; simpa using hrun i hi
  refine ⟨?_, ?_, ?_, ?_⟩
  · intro inp t h
    exact appUpdate_end K N inp t h
  · intro inp t h
    rw [appUpdate_frame K N inp t h]
    simp [frameTrace]
  · intro fuel hf
    refine ⟨_, appLoop_stops K N env n fuel 0 s hrun0 (by simpa using hend) hf, ?_, ?_⟩
    · simp [emit, runFrames_trace K N env n 0 s hrun0]
    · simp [emit, runFrames_queue_length K N env n 0 s hrun0]
  · intro fuel hf
    exact appLoop_running K N env fuel 0 s (fun i hi => by
      simpa using hrun i (by omega))

/-- Witness of C5: the window is closed at frame `2`. -/
theorem C5_no_partial_frame_witness :
    (∀ i, i < 2 → (sampleEnv i).isEnd = false) ∧ (sampleEnv 2).isEnd = true ∧
    (∃ s1, appLoop 4 24000 sampleEnv 3 0 (State.init 4) = some s1 ∧
      s1.trace = (State.init 4).trace ++ framesTrace 4 24000 sampleEnv 2 0 ++
        [.isEnd true] ∧
      s1.queue.length = (State.init 4).queue.length + 2) ∧
    appLoop 4 24000 sampleEnv 2 0 (State.init 4) = none :=
  have h1 : ∀ i, i < 2 → (sampleEnv i).isEnd = false := by decide
  have h2 : (sampleEnv 2).isEnd = true := by decide
  ⟨h1, h2,
    (C5_no_partial_frame 4 24000 sampleEnv 2 (State.init 4) h1 h2).2.2.1 3 (by decide),
    (C5_no_partial_frame 4 24000 sampleEnv 2 (State.init 4) h1 h2).2.2.2 2 (by decide)⟩

/-! ## Events of the body phase -/

theorem mem_bodyTrace {K N k : Nat} {e : Event} (h : e ∈ bodyTrace K N k) :
    e = .reset (.commandLists k) ∨ (∃ c, e = .record (.commandLists k) c) ∨
      e = .close (.commandLists k) := by
  simp only [bodyTrace, List.mem_cons, List.mem_append, List.mem_map, List.mem_singleton,
    List.not_mem_nil, or_false] at h
  rcases h with h | ⟨c, _, hc⟩ | h
  · exact Or.inl h
  · exact Or.inr (Or.inl ⟨c, hc.symm⟩)
  · exact Or.inr (Or.inr h)

theorem mem_phase2 {K N : Nat} {order : List Nat} {e : Event}
    (h : e ∈ phase2 K N order) :
    ∃ k, k ∈ order ∧ (e = .reset (.commandLists k) ∨ (∃ c, e = .record (.commandLists k) c) ∨
      e = .close (.commandLists k)) := by
  simp only [phase2, List.mem_flatten, List.mem_map] at h
  obtain ⟨l, ⟨k, hk, rfl⟩, he⟩ := h
  exact ⟨k, hk, mem_bodyTrace he⟩

theorem filter_isExecute_phase2 (K N : Nat) (order : List Nat) :
    (phase2 K N order).filter Event.isExecute = [] := by
  rw [List.filter_eq_nil_iff]
  intro e he
  obtain ⟨k, _, h | ⟨c, h⟩ | h⟩ := mem_phase2 he <;> simp [h, Event.isExecute]

/-- C2: in every full frame exactly one array is handed to `ExecuteCommandLists`; its
announced and actual length is `K + 2`, slot `0` is the begin command list, slot `i + 1`
is body command list `i` for every `i < K`, slot `K + 1` is the end command list, and no
slot is left unassigned. -/
theorem C2_submission_array (K N : Nat) (inp : FrameInput) (s : State)
    (h : inp.isEnd = false) :
    ∃ F lists, (appUpdate K N inp s).2.trace = s.trace ++ F ∧
      F.filter Event.isExecute = [.executeCommandLists (K + 2) lists] ∧
      lists.length = K + 2 ∧
      lists[0]? = some (some .commandListBegin) ∧
      (∀ i, i < K → lists[i + 1]? = some (some (.commandLists i))) ∧
      lists[K + 1]? = some (some .commandListEnd) ∧
      (∀ j, j < K + 2 → ∃ r, lists[j]? = some (some r)) := by
  have hK1 : ∀ i, i < K → (buildLists K)[i + 1]? = some (some (.commandLists i)) := by
    intro i hi
    rw [buildLists_eq, List.getElem?_cons_succ, List.getElem?_append]
    simp [hi, List.getElem?_range hi]
  have hK2 : (buildLists K)[K + 1]? = some (some .commandListEnd) := by
    rw [buildLists_eq, List.getElem?_cons_succ, List.getElem?_append]
    simp
  refine ⟨frameTrace K N inp, buildLists K, ?_, ?_, ?_, ?_, hK1, hK2, ?_⟩
  · rw [appUpdate_frame K N inp s h]
  · simp [frameTrace, List.filter_append, filter_isExecute_phase2, phase1, phase3, phase4,
      phase5, Event.isExecute, List.filter]
  · simp [buildLists_eq]
  · simp [buildLists_eq]
  · intro j hj
    rcases j with _ | j
    · exact ⟨.commandListBegin, by simp [buildLists_eq]⟩
    · by_cases hjK : j < K
      · exact ⟨_, hK1 j hjK⟩
      · have : j = K := by omega
        subst this
        exact ⟨_, hK2⟩

/-- Witness of C2 at the constants of the program. -/
theorem C2_submission_array_witness :
    (sampleEnv 0).isEnd = false ∧
    ∃ F lists, (appUpdate 4 24000 (sampleEnv 0) (State.init 4)).2.trace =
        (State.init 4).trace ++ F ∧
      F.filter Event.isExecute = [.executeCommandLists (4 + 2) lists] ∧
      lists.length = 4 + 2 ∧
      lists[0]? = some (some .commandListBegin) ∧
      (∀ i, i < 4 → lists[i + 1]? = some (some (.commandLists i))) ∧
      lists[4 + 1]? = some (some .commandListEnd) ∧
      (∀ j, j < 4 + 2 → ∃ r, lists[j]? = some (some r)) :=
  ⟨by decide, C2_submission_array 4 24000 (sampleEnv 0) (State.init 4) (by decide)⟩

/-! ## Draw counts -/

/-- Closed form of a full frame in which every body task runs once. -/
theorem appUpdate_frame_perm (K N : Nat) (inp : FrameInput) (s : State)
    (h : inp.isEnd = false) (hperm : inp.order.Perm (List.range K))
    (hl : s.commandLists.length = K) :
    appUpdate K N inp s =
      (true,
        { commandListBegin := [Cmd.startRendering],
          commandLists := (List.range K).map (bodyRecording K N),
          commandListEnd := [Cmd.finishRendering],
          queue := s.queue ++ [frameBatch K N],
          trace := s.trace ++ frameTrace K N inp }) := by
  rw [appUpdate_frame K N inp s h, bodiesAfter_perm K N inp.order s.commandLists hperm hl]
  have hmap : (List.range K).map (fun i =>
      some (((List.range K).map (bodyRecording K N)).getD i [])) =
      (List.range K).map (fun k => some (bodyRecording K N k)) := by
    apply List.map_congr_left
    intro i hi
    have hi2 : i < K := List.mem_range.1 hi
    simp [List.getD_eq_getElem?_getD, List.getElem?_range hi2]
  rw [hmap]
  rfl

theorem countP_isDraw_drawCmds (i n : Nat) : (drawCmds i n).countP Cmd.isDraw = n := by
  induction n generalizing i with
  | zero => rfl
  | succ n ih => simp [drawCmds, Cmd.isDraw, ih]

theorem countP_isDraw_bodyRecording (K N k : Nat) :
    (bodyRecording K N k).countP Cmd.isDraw = partEnd K N k - partStart K N k := by
  simp [bodyRecording, List.countP_append, countP_isDraw_drawCmds, Cmd.isDraw]

theorem stream_frameBatch (K N : Nat) :
    stream (frameBatch K N) =
      Cmd.startRendering ::
        (((List.range K).map (bodyRecording K N)).flatten ++ [Cmd.finishRendering]) := by
  simp [stream, frameBatch, Function.comp_def]

theorem body_size_constants (k : Nat) (hk : k < 4) :
    partEnd 4 24000 k - partStart 4 24000 k = 6000 := by
  interval_cases k <;> decide

theorem phase2_perm (K N : Nat) {o1 o2 : List Nat} (h : o1.Perm o2) :
    (phase2 K N o1).Perm (phase2 K N o2) := by
  unfold phase2
  exact List.Perm.flatten (h.map _)

theorem countP_isDrawCall_bodyTrace (K N k : Nat) :
    (bodyTrace K N k).countP Event.isDrawCall = partEnd K N k - partStart K N k := by
  have hc : (Event.isDrawCall ∘ fun c => Event.record (.commandLists k) c) = Cmd.isDraw := by
    funext c; rfl
  simp [bodyTrace, List.countP_cons, List.countP_append, List.countP_map, hc,
    countP_isDraw_bodyRecording, Event.isDrawCall]

theorem countP_isDrawOn_bodyTrace (K N k j : Nat) :
    (bodyTrace K N k).countP (Event.isDrawOn (.commandLists j)) =
      if k = j then partEnd K N k - partStart K N k else 0 := by
  by_cases hkj : k = j
  · subst hkj
    have hc : (Event.isDrawOn (.commandLists k) ∘ fun c => Event.record (.commandLists k) c) =
        Cmd.isDraw := by
      funext c; simp [Event.isDrawOn]
    simp [bodyTrace, List.countP_cons, List.countP_append, List.countP_map, hc,
      countP_isDraw_bodyRecording, Event.isDrawOn]
  · have hc : (Event.isDrawOn (.commandLists j) ∘ fun c => Event.record (.commandLists k) c) =
        fun _ => false := by
      funext c; simp [Event.isDrawOn, hkj]
    simp [bodyTrace, List.countP_cons, List.countP_append, List.countP_map, hc,
      Event.isDrawOn, hkj]

theorem countP_frameTrace_perm (K N : Nat) (inp : FrameInput) (p : Event → Bool)
    (hperm : inp.order.Perm (List.range K)) :
    (frameTrace K N inp).countP p =
      (frameTrace K N { inp with order := List.range K }).countP p := by
  have := (phase2_perm K N hperm).countP_eq p
  simp only [frameTrace, List.countP_append, this]

/-- C3: with `objectNum = 24000` and `commandListNum = 4`, in a full frame in which the
four body tasks run (in any order), exactly 6000 `DrawIndexedInstanced` calls are made
on each body command list and 24000 in the whole frame; afterwards each body command
list holds exactly 6000 draws, the begin and end command lists hold none, and the
submitted command stream holds exactly 24000. -/
theorem C3_draw_counts (inp : FrameInput) (s : State) (h : inp.isEnd = false)
    (hperm : inp.order.Perm (List.range commandListNum))
    (hl : s.commandLists.length = commandListNum) :
    (∃ F, (appUpdate commandListNum objectNum inp s).2.trace = s.trace ++ F ∧
      (∀ k, k < 4 → F.countP (Event.isDrawOn (.commandLists k)) = 6000) ∧
      F.countP Event.isDrawCall = 24000) ∧
    (appUpdate commandListNum objectNum inp s).2.commandLists.length = 4 ∧
    (∀ k, k < 4 →
      ((appUpdate commandListNum objectNum inp s).2.content (.commandLists k)).countP
        Cmd.isDraw = 6000) ∧
    ((appUpdate commandListNum objectNum inp s).2.content .commandListBegin).countP
        Cmd.isDraw = 0 ∧
    ((appUpdate commandListNum objectNum inp s).2.content .commandListEnd).countP
        Cmd.isDraw = 0 ∧
    ∃ batch, (appUpdate commandListNum objectNum inp s).2.queue = s.queue ++ [batch] ∧
      (stream batch).countP Cmd.isDraw = 24000 := by
  rw [appUpdate_frame_perm commandListNum objectNum inp s h hperm hl]
  have h4 : commandListNum = 4 := rfl
  have hN : objectNum = 24000 := rfl
  rw [h4] at hperm
  rw [h4, hN]
  have hr : List.range 4 = [0, 1, 2, 3] := by decide
  refine ⟨⟨frameTrace 4 24000 inp, rfl, ?_, ?_⟩, by simp, ?_,
    by simp [State.content, Cmd.isDraw], by simp [State.content, Cmd.isDraw],
    frameBatch 4 24000, rfl, ?_⟩
  · intro k hk
    rw [countP_frameTrace_perm 4 24000 inp _ hperm]
    simp only [frameTrace, phase2, hr, List.map_cons, List.map_nil, List.flatten_cons,
      List.flatten_nil, List.countP_append, countP_isDrawOn_bodyTrace, body_size_constants]
    interval_cases k <;>
      simp [phase1, phase3, phase4, phase5, Event.isDrawOn, List.countP_cons,
        body_size_constants]
  · rw [countP_frameTrace_perm 4 24000 inp _ hperm]
    simp only [frameTrace, phase2, hr, List.map_cons, List.map_nil, List.flatten_cons,
      List.flatten_nil, List.countP_append, countP_isDrawCall_bodyTrace, List.countP_nil,
      phase1, phase3, phase4, phase5, Event.isDrawCall, Cmd.isDraw, List.countP_cons]
    rw [body_size_constants 0 (by omega), body_size_constants 1 (by omega),
      body_size_constants 2 (by omega), body_size_constants 3 (by omega)]
    simp
  · intro k hk
    simp only [State.content, List.getD_eq_getElem?_getD, List.getElem?_map,
      List.getElem?_range hk, Option.map_some', Option.getD_some]
    rw [countP_isDraw_bodyRecording, body_size_constants k hk]
  · rw [stream_frameBatch]
    simp [hr, List.countP_append, countP_isDraw_bodyRecording, body_size_constants,
      Cmd.isDraw, List.countP_cons]

/-- Witness of C3: the four tasks run in the order `2, 0, 3, 1`. -/
theorem C3_draw_counts_witness :
    (sampleEnv 0).isEnd = false ∧ (sampleEnv 0).order.Perm (List.range commandListNum) ∧
    (State.init 4).commandLists.length = commandListNum ∧
    (∀ k, k < 4 →
      ((appUpdate commandListNum objectNum (sampleEnv 0) (State.init 4)).2.content
        (.commandLists k)).countP Cmd.isDraw = 6000) :=
  have h1 : (sampleEnv 0).isEnd = false := by decide
  have h2 : (sampleEnv 0).order.Perm (List.range commandListNum) := by decide
  have h3 : (State.init 4).commandLists.length = commandListNum := by decide
  ⟨h1, h2, h3, (C3_draw_counts (sampleEnv 0) (State.init 4) h1 h2 h3).2.2.1⟩

/-! ## Independence of the task order -/

/-- C7: if the `K` body tasks run once each, then for any two orders in which they run
the contents of all command lists and the submitted batch are the same: body command list
`k` holds `bodyRecording K N k`, which is a function of `k` alone, and the batch is
`[begin, body_0, …, body_{K-1}, end]`; a task writes no command list but its own. -/
theorem C7_order_independent (K N : Nat) (inp1 inp2 : FrameInput) (s : State)
    (h1 : inp1.isEnd = false) (h2 : inp2.isEnd = false)
    (hperm1 : inp1.order.Perm (List.range K)) (hperm2 : inp2.order.Perm (List.range K))
    (hl : s.commandLists.length = K) :
    (appUpdate K N inp1 s).2.commandListBegin = (appUpdate K N inp2 s).2.commandListBegin ∧
    (appUpdate K N inp1 s).2.commandLists = (appUpdate K N inp2 s).2.commandLists ∧
    (appUpdate K N inp1 s).2.commandListEnd = (appUpdate K N inp2 s).2.commandListEnd ∧
    (appUpdate K N inp1 s).2.queue = (appUpdate K N inp2 s).2.queue ∧
    (∀ k, k < K →
      (appUpdate K N inp1 s).2.content (.commandLists k) = bodyRecording K N k) ∧
    (appUpdate K N inp1 s).2.queue = s.queue ++
      [some [Cmd.startRendering] ::
        ((List.range K).map (fun k => some (bodyRecording K N k)) ++
          [some [Cmd.finishRendering]])] ∧
    (∀ k (t : State),
      (bodyTask K N k t).commandListBegin = t.commandListBegin ∧
      (bodyTask K N k t).commandListEnd = t.commandListEnd ∧
      (bodyTask K N k t).queue = t.queue ∧
      (bodyTask K N k t).commandLists.length = t.commandLists.length ∧
      (∀ j, j ≠ k → (bodyTask K N k t).commandLists[j]? = t.commandLists[j]?) ∧
      (k < t.commandLists.length →
        (bodyTask K N k t).commandLists[k]? = some (bodyRecording K N k))) := by
  rw [appUpdate_frame_perm K N inp1 s h1 hperm1 hl,
    appUpdate_frame_perm K N inp2 s h2 hperm2 hl]
  refine ⟨rfl, rfl, rfl, rfl, ?_, rfl, ?_⟩
  · intro k hk
    simp [State.content, List.getD_eq_getElem?_getD, List.getElem?_range hk]
  · intro k t
    rw [bodyTask_eq]
    refine ⟨rfl, rfl, rfl, by simp [setContent], ?_, ?_⟩
    · intro j hj
      simp [setContent, List.getElem?_modify_ne _ _ (Ne.symm hj)]
    · intro hk
      simp [setContent, List.getElem?_modify, List.getElem?_eq_getElem hk]

/-- Witness of C7: the orders `2, 0, 3, 1` and `0, 1, 2, 3` of four tasks. -/
theorem C7_order_independent_witness :
    (sampleEnv 0).order.Perm (List.range 4) ∧
    ({ isEnd := false, order := [0, 1, 2, 3], currentBufferIndex := 0 } : FrameInput).order.Perm
      (List.range 4) ∧
    (appUpdate 4 24000 (sampleEnv 0) (State.init 4)).2.commandLists =
      (appUpdate 4 24000 { isEnd := false, order := [0, 1, 2, 3], currentBufferIndex := 0 }
        (State.init 4)).2.commandLists ∧
    (appUpdate 4 24000 (sampleEnv 0) (State.init 4)).2.queue =
      (appUpdate 4 24000 { isEnd := false, order := [0, 1, 2, 3], currentBufferIndex := 0 }
        (State.init 4)).2.queue :=
  have p1 : (sampleEnv 0).order.Perm (List.range 4) := by decide
  have p2 : ({ isEnd := false, order := [0, 1, 2, 3], currentBufferIndex := 0 } :
      FrameInput).order.Perm (List.range 4) := by decide
  have hw := C7_order_independent 4 24000 (sampleEnv 0)
    { isEnd := false, order := [0, 1, 2, 3], currentBufferIndex := 0 } (State.init 4)
    (by decide) (by decide) p1 p2 (by decide)
  ⟨p1, p2, hw.2.1, hw.2.2.2.1⟩

/-! ## Fence values -/

theorem fenceValues_append (l1 l2 : List Event) :
    fenceValues (l1 ++ l2) = fenceValues l1 ++ fenceValues l2 := by
  induction l1 with
  | nil => rfl
  | cons e l ih => cases e <;> simp [fenceValues, ih]

theorem fenceValues_eq_nil (l : List Event)
    (h : ∀ e ∈ l, ∀ v, e ≠ .fenceSignal v ∧ e ≠ .queueSignal v) : fenceValues l = [] := by
  induction l with
  | nil => rfl
  | cons e l ih =>
    have hl := ih (fun e he => h e (List.mem_cons_of_mem _ he))
    have he := h e (List.mem_cons_self _ _)
    cases e <;> simp_all [fenceValues]

theorem fenceValues_phase2 (K N : Nat) (order : List Nat) :
    fenceValues (phase2 K N order) = [] := by
  apply fenceValues_eq_nil
  intro e he v
  obtain ⟨k, _, h | ⟨c, h⟩ | h⟩ := mem_phase2 he <;> simp [h]

theorem fenceValues_frameTrace (K N : Nat) (inp : FrameInput) :
    fenceValues (frameTrace K N inp) = [0, 1] := by
  simp [frameTrace, fenceValues_append, fenceValues_phase2, phase1, phase3, phase4, phase5,
    fenceValues]

theorem fenceValues_framesTrace (K N : Nat) (env : Nat → FrameInput) (n j : Nat) :
    fenceValues (framesTrace K N env n j) = (List.replicate n [0, 1]).flatten := by
  induction n generalizing j with
  | zero => rfl
  | succ n ih =>
    simp [framesTrace, fenceValues_append, fenceValues_frameTrace, ih, List.replicate_succ]

theorem chain_fence_iff (n : Nat) :
    List.Chain' (fun a b : Nat => a ≤ b) (List.replicate n [0, 1]).flatten ↔ n ≤ 1 := by
  rcases n with _ | _ | n
  · simp
  · simp [List.replicate]
  · simp [List.replicate]

/-- C4, counterexample: in the run of the program that performs two full frames the
fence is set to `0, 1, 0, 1`, which decreases from `1` to `0` between the frames. -/
theorem C4_counterexample :
    ∃ s1, appLoop commandListNum objectNum sampleEnv 3 0 (State.init commandListNum) =
        some s1 ∧
      fenceValues s1.trace = [0, 1, 0, 1] ∧
      ¬ List.Chain' (fun a b : Nat => a ≤ b) (fenceValues s1.trace) := by
  have hrun : ∀ i, i < 2 → (sampleEnv (0 + i)).isEnd = false := by decide
  have hend : (sampleEnv (0 + 2)).isEnd = true := by decide
  have ht := runFrames_trace commandListNum objectNum sampleEnv 2 0
    (State.init commandListNum) hrun
  have hv : fenceValues (emit (.isEnd true) (runFrames commandListNum objectNum sampleEnv 2 0
      (State.init commandListNum))).trace = [0, 1, 0, 1] := by
    simp only [emit]
    rw [ht, fenceValues_append, fenceValues_append, fenceValues_framesTrace]
    simp [State.init, fenceValues, List.replicate]
  refine ⟨_, appLoop_stops commandListNum objectNum sampleEnv 2 3 0 _ hrun hend (by decide),
    hv, ?_⟩
  rw [hv]
  simp

/-- C4, amended: every full frame sets the fence to `0` (CPU-side `Signal`) and then to
`1` (queue-side `Signal`), so over a run of `n` full frames the values the fence is set
to are `0, 1` repeated `n` times; the sequence never decreases within a frame, and over
the whole run it is non-decreasing exactly when `n ≤ 1`. -/
theorem C4_fence_values (K N : Nat) (env : Nat → FrameInput) (n : Nat) (s : State)
    (fuel : Nat) (hrun : ∀ i, i < n → (env i).isEnd = false)
    (hend : (env n).isEnd = true) (hfuel : n < fuel) :
    (∀ inp t, inp.isEnd = false → ∃ F, (appUpdate K N inp t).2.trace = t.trace ++ F ∧
      fenceValues F = [0, 1]) ∧
    ∃ s1 T, appLoop K N env fuel 0 s = some s1 ∧ s1.trace = s.trace ++ T ∧
      fenceValues T = (List.replicate n [0, 1]).flatten ∧
      (List.Chain' (fun a b : Nat => a ≤ b) (fenceValues T) ↔ n ≤ 1) := by
  have hrun0 : ∀ i, i < n → (env (0 + i)).isEnd = false := by
    intro i hi; simpa using hrun i hi
  have hT : fenceValues (framesTrace K N env n 0 ++ [Event.isEnd true]) =
      (List.replicate n [0, 1]).flatten := by
    simp [fenceValues_append, fenceValues_framesTrace, fenceValues]
  refine ⟨?_, _, framesTrace K N env n 0 ++ [.isEnd true],
    appLoop_stops K N env n fuel 0 s hrun0 (by simpa using hend) hfuel, ?_, hT, ?_⟩
  · intro inp t h
    refine ⟨frameTrace K N inp, ?_, fenceValues_frameTrace K N inp⟩
    rw [appUpdate_frame K N inp t h]
  · simp [emit, runFrames_trace K N env n 0 s hrun0]
  · rw [hT]; exact chain_fence_iff n

/-- Witness of the amended C4: a run of two full frames. -/
theorem C4_fence_values_witness :
    (∀ i, i < 2 → (sampleEnv i).isEnd = false) ∧ (sampleEnv 2).isEnd = true ∧ 2 < 3 ∧
    ∃ s1 T, appLoop 4 24000 sampleEnv 3 0 (State.init 4) = some s1 ∧
      s1.trace = (State.init 4).trace ++ T ∧
      fenceValues T = (List.replicate 2 [0, 1]).flatten ∧
      (List.Chain' (fun a b : Nat => a ≤ b) (fenceValues T) ↔ 2 ≤ 1) :=
  have h1 : ∀ i, i < 2 → (sampleEnv i).isEnd = false := by decide
  have h2 : (sampleEnv 2).isEnd = true := by decide
  ⟨h1, h2, by decide,
    (C4_fence_values 4 24000 sampleEnv 2 (State.init 4) 3 h1 h2 (by decide)).2⟩

/-! ## Resets and fence waits along the loop -/

theorem frameTrace_split (K N : Nat) (inp : FrameInput) :
    frameTrace K N inp =
      .isEnd false :: (frameRecording K N inp.order ++
        frameSubmission K inp.currentBufferIndex) := by
  simp [frameTrace, frameRecording, frameSubmission]

theorem frameRecording_mem {K N : Nat} {order : List Nat} {e : Event}
    (h : e ∈ frameRecording K N order) :
    e.isIsEnd = false ∧ e.isWait = false ∧ e.isExecute = false := by
  simp only [frameRecording, List.mem_cons, List.mem_append] at h
  rcases h with h | (h | h) | h
  · subst h; exact ⟨rfl, rfl, rfl⟩
  · simp only [phase1, List.mem_cons, List.mem_singleton, List.not_mem_nil, or_false] at h
    rcases h with h | h | h <;> subst h <;> exact ⟨rfl, rfl, rfl⟩
  · obtain ⟨k, _, h | ⟨c, h⟩ | h⟩ := mem_phase2 h <;> subst h <;> exact ⟨rfl, rfl, rfl⟩
  · simp only [phase3, List.mem_cons, List.mem_singleton, List.not_mem_nil, or_false] at h
    rcases h with h | h | h <;> subst h <;> exact ⟨rfl, rfl, rfl⟩

theorem frameSubmission_no_reset {K cbi : Nat} {r : Recorder} :
    Event.reset r ∉ frameSubmission K cbi := by
  simp [frameSubmission, phase4, phase5]

theorem frameRecording_counts (K N : Nat) (order : List Nat) :
    (frameRecording K N order).countP Event.isIsEnd = 0 ∧
    (frameRecording K N order).countP Event.isWait = 0 ∧
    (frameRecording K N order).countP Event.isExecute = 0 := by
  refine ⟨?_, ?_, ?_⟩ <;> rw [List.countP_eq_zero] <;> intro e he <;>
    simp [(frameRecording_mem he).1, (frameRecording_mem he).2.1, (frameRecording_mem he).2.2]

theorem frameSubmission_counts (K cbi : Nat) :
    (frameSubmission K cbi).countP Event.isIsEnd = 0 ∧
    (frameSubmission K cbi).countP Event.isWait = 1 ∧
    (frameSubmission K cbi).countP Event.isExecute = 1 := by
  simp [frameSubmission, phase4, phase5, List.countP_cons, Event.isIsEnd, Event.isWait,
    Event.isExecute]

theorem frameTrace_counts (K N : Nat) (inp : FrameInput) :
    (frameTrace K N inp).countP Event.isIsEnd = 1 ∧
    (frameTrace K N inp).countP Event.isWait = 1 ∧
    (frameTrace K N inp).countP Event.isExecute = 1 := by
  have h1 := frameRecording_counts K N inp.order
  have h2 := frameSubmission_counts K inp.currentBufferIndex
  rw [frameTrace_split]
  simp [List.countP_cons, List.countP_append, h1, h2, Event.isIsEnd, Event.isWait,
    Event.isExecute]

/-- Before any `reset()` of a frame the frame has made its query, no submission and no
fence wait. -/
theorem frameTrace_before_reset (K N : Nat) (inp : FrameInput) (p q : List Event)
    (r : Recorder) (h : frameTrace K N inp = p ++ .reset r :: q) :
    p.countP Event.isIsEnd = 1 ∧ p.countP Event.isWait = 0 ∧ p.countP Event.isExecute = 0 := by
  rw [frameTrace_split] at h
  rcases p with _ | ⟨x, p⟩
  · simp at h
  · simp only [List.cons_append, List.cons.injEq] at h
    obtain ⟨hx, h⟩ := h
    subst hx
    have hc := frameRecording_counts K N inp.order
    rcases List.append_eq_append_iff.1 h with ⟨a, _, hb⟩ | ⟨c, hc1, _⟩
    · exfalso
      have : Event.reset r ∈ frameSubmission K inp.currentBufferIndex := by
        rw [hb]; simp
      exact frameSubmission_no_reset this
    · have hsub : p.Sublist (frameRecording K N inp.order) := by
        rw [hc1]; exact List.sublist_append_left _ _
      have h1 := hsub.countP_le Event.isIsEnd
      have h2 := hsub.countP_le Event.isWait
      have h3 := hsub.countP_le Event.isExecute
      rw [hc.1] at h1
      rw [hc.2.1] at h2
      rw [hc.2.2] at h3
      have e1 : p.countP Event.isIsEnd = 0 := Nat.le_zero.1 h1
      have e2 : p.countP Event.isWait = 0 := Nat.le_zero.1 h2
      have e3 : p.countP Event.isExecute = 0 := Nat.le_zero.1 h3
      refine ⟨?_, ?_, ?_⟩
      · rw [List.countP_cons, e1]; rfl
      · rw [List.countP_cons, e2]; rfl
      · rw [List.countP_cons, e3]; rfl

theorem framesTrace_counts (K N : Nat) (env : Nat → FrameInput) (m j : Nat) :
    (framesTrace K N env m j).countP Event.isIsEnd = m ∧
    (framesTrace K N env m j).countP Event.isWait = m ∧
    (framesTrace K N env m j).countP Event.isExecute = m := by
  induction m generalizing j with
  | zero => simp [framesTrace]
  | succ m ih =>
    have h := frameTrace_counts K N (env j)
    have h2 := ih (j + 1)
    simp only [framesTrace, List.countP_append, h, h2]
    omega

theorem framesTrace_add (K N : Nat) (env : Nat → FrameInput) (a b j : Nat) :
    framesTrace K N env (a + b) j =
      framesTrace K N env a j ++ framesTrace K N env b (j + a) := by
  induction a generalizing j with
  | zero => simp [framesTrace]
  | succ a ih =>
    have e : a + 1 + b = (a + b) + 1 := by omega
    rw [e]
    simp only [framesTrace, ih (j + 1), List.append_assoc]
    rw [show j + 1 + a = j + (a + 1) by omega]

/-- A `reset()` in a run of full frames lies in one of the frames. -/
theorem framesTrace_split_reset (K N : Nat) (env : Nat → FrameInput) (tail : List Event)
    (htail : ∀ r, Event.reset r ∉ tail) :
    ∀ (n j : Nat) (pre post : List Event) (r : Recorder),
      framesTrace K N env n j ++ tail = pre ++ .reset r :: post →
      ∃ m p q, m < n ∧ pre = framesTrace K N env m j ++ p ∧
        frameTrace K N (env (j + m)) = p ++ .reset r :: q := by
  intro n
  induction n with
  | zero =>
    intro j pre post r h
    exfalso
    simp only [framesTrace, List.nil_append] at h
    exact htail r (by rw [h]; simp)
  | succ n ih =>
    intro j pre post r h
    simp only [framesTrace, List.append_assoc] at h
    have next : ∀ c, framesTrace K N env n (j + 1) ++ tail = c ++ .reset r :: post →
        pre = frameTrace K N (env j) ++ c →
        ∃ m p q, m < n + 1 ∧ pre = framesTrace K N env m j ++ p ∧
          frameTrace K N (env (j + m)) = p ++ .reset r :: q := by
      intro c hc hpre
      obtain ⟨m, p, q, hm, hp, hq⟩ := ih (j + 1) c post r hc
      refine ⟨m + 1, p, q, by omega, ?_, ?_⟩
      · rw [hpre, hp]; simp [framesTrace]
      · rw [show j + (m + 1) = j + 1 + m by omega]; exact hq
    rcases List.append_eq_append_iff.1 h with ⟨a, ha, hb⟩ | ⟨c, hc1, hc2⟩
    · exact next a hb ha
    · rcases c with _ | ⟨x, c⟩
      · simp only [List.append_nil, List.nil_append] at hc1 hc2
        exact next [] (by simpa using hc2.symm) (by simpa using hc1.symm)
      · simp only [List.cons_append, List.cons.injEq] at hc2
        obtain ⟨hx, _⟩ := hc2
        subst hx
        exact ⟨0, pre, c, by omega, by simp [framesTrace], by simpa using hc1⟩

theorem frameTrace_wait (K N : Nat) (inp : FrameInput) :
    ∃ p, frameTrace K N inp = p ++ [.waitForSingleObject, .closeHandle] ∧
      p.countP Event.isIsEnd = 1 := by
  refine ⟨[.isEnd false, .timeCheckBegin] ++ phase1 ++ phase2 K N inp.order ++ phase3 ++
    phase4 K inp.currentBufferIndex ++ [.timeCheckEnd, .timePrint] ++
    [.fenceSignal 0, .queueSignal 1, .createEvent, .setEventOnCompletion 1], ?_, ?_⟩
  · simp [frameTrace, phase5]
  · have h := (frameTrace_counts K N inp).1
    simp only [frameTrace, phase5, List.countP_append] at h
    simp only [List.countP_append]
    simp [List.countP_cons, Event.isIsEnd] at h ⊢
    omega

theorem reset_mem_frameTrace (K N : Nat) (inp : FrameInput) (r : Recorder)
    (hperm : inp.order.Perm (List.range K))
    (hr : r = .commandListBegin ∨ (∃ k, k < K ∧ r = .commandLists k) ∨ r = .commandListEnd) :
    Event.reset r ∈ frameTrace K N inp := by
  rcases hr with h | ⟨k, hk, h⟩ | h
  · subst h; simp [frameTrace, phase1]
  · subst h
    have hmem : k ∈ inp.order := (hperm.mem_iff).2 (List.mem_range.2 hk)
    have : Event.reset (.commandLists k) ∈ phase2 K N inp.order := by
      simp only [phase2, List.mem_flatten, List.mem_map]
      exact ⟨bodyTrace K N k, ⟨k, hmem, rfl⟩, by simp [bodyTrace]⟩
    simp [frameTrace, this]
  · subst h; simp [frameTrace, phase3]

/-- C6: in the trace `T` of a run of the loop `while (appUpdate())` with `n` full frames,
count frames by the `isEnd()` queries.  Before every `reset()` of a command list, all
earlier frames have passed their fence wait (one more query than waits) and every
submission has been waited for; a `reset()` of frame `j + 1` comes after the
`WaitForSingleObject` of frame `j`; and every frame resets the begin command list, each
of the `K` body command lists and the end command list. -/
theorem C6_reset_after_fence_wait (K N : Nat) (env : Nat → FrameInput) (n : Nat)
    (s : State) (fuel : Nat) (hrun : ∀ i, i < n → (env i).isEnd = false)
    (hend : (env n).isEnd = true) (hfuel : n < fuel)
    (hperm : ∀ j, j < n → (env j).order.Perm (List.range K)) :
    ∃ s1 T, appLoop K N env fuel 0 s = some s1 ∧ s1.trace = s.trace ++ T ∧
      (∀ pre r post, T = pre ++ .reset r :: post →
        pre.countP Event.isWait + 1 = pre.countP Event.isIsEnd ∧
        pre.countP Event.isExecute = pre.countP Event.isWait) ∧
      (∀ pre r post j, T = pre ++ .reset r :: post → pre.countP Event.isIsEnd = j + 2 →
        ∃ pre1 post1, pre = pre1 ++ .waitForSingleObject :: post1 ∧
          pre1.countP Event.isIsEnd = j + 1) ∧
      (∀ j, j < n → ∀ r,
        (r = .commandListBegin ∨ (∃ k, k < K ∧ r = .commandLists k) ∨ r = .commandListEnd) →
        ∃ pre post, T = pre ++ .reset r :: post ∧ pre.countP Event.isIsEnd = j + 1) := by
  have hrun0 : ∀ i, i < n → (env (0 + i)).isEnd = false := by
    intro i hi; simpa using hrun i hi
  have htail : ∀ r, Event.reset r ∉ [Event.isEnd true] := by intro r; simp
  refine ⟨_, framesTrace K N env n 0 ++ [.isEnd true],
    appLoop_stops K N env n fuel 0 s hrun0 (by simpa using hend) hfuel, ?_, ?_, ?_, ?_⟩
  · simp [emit, runFrames_trace K N env n 0 s hrun0]
  · intro pre r post h
    obtain ⟨m, p, q, _, hp, hq⟩ :=
      framesTrace_split_reset K N env _ htail n 0 pre post r h
    obtain ⟨c1, c2, c3⟩ := framesTrace_counts K N env m 0
    obtain ⟨b1, b2, b3⟩ := frameTrace_before_reset K N _ p q r hq
    rw [hp]
    simp [List.countP_append, c1, c2, c3, b1, b2, b3]
  · intro pre r post j h hj
    obtain ⟨m, p, q, _, hp, hq⟩ :=
      framesTrace_split_reset K N env _ htail n 0 pre post r h
    obtain ⟨c1, _, _⟩ := framesTrace_counts K N env m 0
    obtain ⟨b1, _, _⟩ := frameTrace_before_reset K N _ p q r hq
    have hm : m = j + 1 := by
      rw [hp] at hj
      simp only [List.countP_append, c1, b1] at hj
      omega
    subst hm
    obtain ⟨p1, hp1, hcount⟩ := frameTrace_wait K N (env (0 + j))
    have hsplit : framesTrace K N env (j + 1) 0 =
        framesTrace K N env j 0 ++ frameTrace K N (env (0 + j)) := by
      rw [framesTrace_add]; simp [framesTrace]
    refine ⟨framesTrace K N env j 0 ++ p1, .closeHandle :: p, ?_, ?_⟩
    · rw [hp, hsplit, hp1]; simp
    · obtain ⟨d1, _, _⟩ := framesTrace_counts K N env j 0
      simp only [List.countP_append, d1, hcount]
  · intro j hj r hr
    obtain ⟨p, q, hpq⟩ := List.append_of_mem (reset_mem_frameTrace K N (env j) r (hperm j hj) hr)
    obtain ⟨b1, _, _⟩ := frameTrace_before_reset K N _ p q r hpq
    have hsplit : framesTrace K N env n 0 =
        framesTrace K N env j 0 ++
          (frameTrace K N (env j) ++ framesTrace K N env (n - j - 1) (j + 1)) := by
      have e : n = j + ((n - j - 1) + 1) := by omega
      conv_lhs => rw [e]
      rw [framesTrace_add]
      simp [framesTrace]
    refine ⟨framesTrace K N env j 0 ++ p,
      q ++ framesTrace K N env (n - j - 1) (j + 1) ++ [.isEnd true], ?_, ?_⟩
    · rw [hsplit, hpq]; simp
    · obtain ⟨d1, _, _⟩ := framesTrace_counts K N env j 0
      simp only [List.countP_append, d1, b1]

/-- Witness of C6: a run of two full frames of the program. -/
theorem C6_reset_after_fence_wait_witness :
    (∀ i, i < 2 → (sampleEnv i).isEnd = false) ∧ (sampleEnv 2).isEnd = true ∧ 2 < 3 ∧
    (∀ j, j < 2 → (sampleEnv j).order.Perm (List.range 4)) ∧
    ∃ s1 T, appLoop 4 24000 sampleEnv 3 0 (State.init 4) = some s1 ∧
      s1.trace = (State.init 4).trace ++ T ∧
      (∀ pre r post, T = pre ++ .reset r :: post →
        pre.countP Event.isWait + 1 = pre.countP Event.isIsEnd ∧
        pre.countP Event.isExecute = pre.countP Event.isWait) ∧
      (∀ pre r post j, T = pre ++ .reset r :: post → pre.countP Event.isIsEnd = j + 2 →
        ∃ pre1 post1, pre = pre1 ++ .waitForSingleObject :: post1 ∧
          pre1.countP Event.isIsEnd = j + 1) ∧
      (∀ j, j < 2 → ∀ r,
        (r = .commandListBegin ∨ (∃ k, k < 4 ∧ r = .commandLists k) ∨ r = .commandListEnd) →
        ∃ pre post, T = pre ++ .reset r :: post ∧ pre.countP Event.isIsEnd = j + 1) :=
  have h1 : ∀ i, i < 2 → (sampleEnv i).isEnd = false := by decide
  have h2 : (sampleEnv 2).isEnd = true := by decide
  have h3 : ∀ j, j < 2 → (sampleEnv j).order.Perm (List.range 4) := by decide
  ⟨h1, h2, by decide, h3,
    C6_reset_after_fence_wait 4 24000 sampleEnv 2 (State.init 4) 3 h1 h2 (by decide) h3⟩

/-! ## Bound object indices and the shape of the stream -/

theorem boundIndices_append (l1 l2 : List Cmd) :
    boundIndices (l1 ++ l2) = boundIndices l1 ++ boundIndices l2 := by
  induction l1 with
  | nil => rfl
  | cons c l ih => cases c <;> simp [boundIndices, ih]

theorem boundIndices_drawCmds (i n : Nat) : boundIndices (drawCmds i n) = List.range' i n := by
  induction n generalizing i with
  | zero => rfl
  | succ n ih => simp [drawCmds, boundIndices, ih, List.range'_succ]

theorem boundIndices_flatten (ls : List (List Cmd)) :
    boundIndices ls.flatten = (ls.map boundIndices).flatten := by
  induction ls with
  | nil => rfl
  | cons l ls ih => simp [boundIndices_append, ih]

theorem part_size {K N k : Nat} (hN : N < u32) (hk : k < K) :
    partEnd K N k - partStart K N k = N / K := by
  rw [partStart_eq hN hk, partEnd_eq hN hk]
  generalize N / K = q
  omega

theorem boundIndices_bodyRecording {K N k : Nat} (hN : N < u32) (hk : k < K) :
    boundIndices (bodyRecording K N k) = List.range' (k * (N / K)) (N / K) := by
  rw [bodyRecording, boundIndices_append, boundIndices_drawCmds, part_size hN hk,
    partStart_eq hN hk]
  simp [boundIndices]

theorem flatten_ranges (q : Nat) (m : Nat) :
    ((List.range m).map (fun k => List.range' (k * q) q)).flatten = List.range (m * q) := by
  induction m with
  | zero => simp
  | succ m ih =>
    rw [List.range_succ, List.map_append, List.flatten_append, ih]
    simp only [List.map_cons, List.map_nil, List.flatten_cons, List.flatten_nil,
      List.append_nil]
    rw [List.range_eq_range', List.range_eq_range']
    have h := List.range'_append 0 (m * q) q 1
    simp only [Nat.one_mul, Nat.zero_add] at h
    rw [h]
    congr 1
    ring

/-- Object indices bound along the submitted stream of a frame. -/
theorem boundIndices_stream (K N : Nat) (hN : N < u32) :
    boundIndices (stream (frameBatch K N)) = List.range (K * (N / K)) := by
  rw [stream_frameBatch]
  have hmap : ((List.range K).map (bodyRecording K N)).map boundIndices =
      (List.range K).map (fun k => List.range' (k * (N / K)) (N / K)) := by
    rw [List.map_map]
    apply List.map_congr_left
    intro k hk
    exact boundIndices_bodyRecording hN (List.mem_range.1 hk)
  have e : Cmd.startRendering :: (((List.range K).map (bodyRecording K N)).flatten ++
      [Cmd.finishRendering]) = [Cmd.startRendering] ++
      (((List.range K).map (bodyRecording K N)).flatten ++ [Cmd.finishRendering]) := rfl
  rw [e, boundIndices_append, boundIndices_append, boundIndices_flatten, hmap,
    flatten_ranges]
  simp [boundIndices]

theorem countP_isDraw_stream (K N : Nat) (hN : N < u32) :
    (stream (frameBatch K N)).countP Cmd.isDraw = K * (N / K) := by
  rw [stream_frameBatch]
  have hmap : ((List.range K).map (bodyRecording K N)).map (List.countP Cmd.isDraw) =
      (List.range K).map (fun _ => N / K) := by
    rw [List.map_map]
    apply List.map_congr_left
    intro k hk
    simp [countP_isDraw_bodyRecording, part_size hN (List.mem_range.1 hk)]
  simp [List.countP_cons, List.countP_append, List.countP_flatten, hmap, Cmd.isDraw]

theorem drawsBound_of_no_draw (n : Nat) (l : List Cmd) (h : ∀ c ∈ l, c.isDraw = false) :
    DrawsBound n l := by
  intro pre c post hl hc
  have : c ∈ l := by rw [hl]; simp
  rw [h c this] at hc
  exact absurd hc (by simp)

theorem drawsBound_append (n : Nat) (l1 l2 : List Cmd) (h1 : DrawsBound n l1)
    (h2 : DrawsBound (n + l1.countP Cmd.isDraw) l2) : DrawsBound n (l1 ++ l2) := by
  intro pre c post hl hc
  have inL2 : ∀ a, pre = l1 ++ a → l2 = a ++ c :: post →
      c = .drawIndexedInstanced 6 1 0 0 0 ∧
      ∃ pre1, pre = pre1 ++ [.constantBufferSetToCommandList (n + pre.countP Cmd.isDraw)] := by
    intro a ha hb
    obtain ⟨e, pre1, hp⟩ := h2 a c post hb hc
    refine ⟨e, l1 ++ pre1, ?_⟩
    rw [ha, List.countP_append, ← Nat.add_assoc, List.append_assoc, ← hp]
  rcases List.append_eq_append_iff.1 hl with ⟨a, ha, hb⟩ | ⟨a, ha, hb⟩
  · exact inL2 a ha hb
  · rcases a with _ | ⟨x, a⟩
    · simp only [List.append_nil, List.nil_append] at ha hb
      exact inL2 [] (by simp [ha]) (by simpa using hb.symm)
    · simp only [List.cons_append, List.cons.injEq] at hb
      obtain ⟨hx, _⟩ := hb
      subst hx
      exact h1 pre c a ha hc

theorem drawsBound_drawCmds (i m : Nat) : DrawsBound i (drawCmds i m) := by
  induction m generalizing i with
  | zero =>
    intro pre c post hl _
    simp [drawCmds] at hl
  | succ m ih =>
    have e : drawCmds i (m + 1) =
        [.constantBufferSetToCommandList i, .drawIndexedInstanced 6 1 0 0 0] ++
          drawCmds (i + 1) m := rfl
    rw [e]
    apply drawsBound_append
    · intro pre c post hl hc
      rcases pre with _ | ⟨x, pre⟩
      · simp only [List.nil_append, List.cons.injEq] at hl
        rw [← hl.1] at hc
        simp [Cmd.isDraw] at hc
      · rcases pre with _ | ⟨y, pre⟩
        · simp only [List.cons_append, List.nil_append, List.cons.injEq] at hl
          obtain ⟨hx, hc2, _⟩ := hl
          subst hx; subst hc2
          exact ⟨rfl, [], by simp [Cmd.isDraw]⟩
        · simp at hl
    · have hcount : ([Cmd.constantBufferSetToCommandList i,
          Cmd.drawIndexedInstanced 6 1 0 0 0]).countP Cmd.isDraw = 1 := by
        simp [List.countP_cons, Cmd.isDraw]
      rw [hcount]
      exact ih (i + 1)

theorem drawsBound_bodyRecording {K N k : Nat} (hN : N < u32) (hk : k < K) :
    DrawsBound (k * (N / K)) (bodyRecording K N k) := by
  unfold bodyRecording
  apply drawsBound_append
  · apply drawsBound_of_no_draw
    intro c hc
    simp only [List.mem_cons, List.mem_singleton, List.not_mem_nil, or_false] at hc
    rcases hc with h | h | h <;> subst h <;> rfl
  · have hcount : ([Cmd.setToRenderTarget, Cmd.psoSetToCommandList,
        Cmd.meshSetToCommandList]).countP Cmd.isDraw = 0 := by
      simp [List.countP_cons, Cmd.isDraw]
    rw [hcount, part_size hN hk, partStart_eq hN hk]
    exact drawsBound_drawCmds _ _

theorem drawsBound_bodies (K N : Nat) (hN : N < u32) :
    ∀ m, m ≤ K →
      DrawsBound 0 ((List.range m).map (bodyRecording K N)).flatten ∧
      ((List.range m).map (bodyRecording K N)).flatten.countP Cmd.isDraw = m * (N / K) := by
  intro m
  induction m with
  | zero => intro _; exact ⟨drawsBound_of_no_draw _ _ (by simp), by simp⟩
  | succ m ih =>
    intro hm
    obtain ⟨h1, h2⟩ := ih (by omega)
    have hk : m < K := by omega
    rw [List.range_succ, List.map_append, List.flatten_append]
    simp only [List.map_cons, List.map_nil, List.flatten_cons, List.flatten_nil,
      List.append_nil]
    refine ⟨?_, ?_⟩
    · apply drawsBound_append _ _ _ h1
      rw [h2, Nat.zero_add]
      exact drawsBound_bodyRecording hN hk
    · rw [List.countP_append, h2, countP_isDraw_bodyRecording, part_size hN hk]
      ring

theorem drawsBound_stream (K N : Nat) (hN : N < u32) :
    DrawsBound 0 (stream (frameBatch K N)) := by
  rw [stream_frameBatch]
  have e : Cmd.startRendering :: (((List.range K).map (bodyRecording K N)).flatten ++
      [Cmd.finishRendering]) = [Cmd.startRendering] ++
      (((List.range K).map (bodyRecording K N)).flatten ++ [Cmd.finishRendering]) := rfl
  rw [e]
  apply drawsBound_append
  · exact drawsBound_of_no_draw _ _ (by simp [Cmd.isDraw])
  · have hcount : [Cmd.startRendering].countP Cmd.isDraw = 0 := by
      simp [List.countP_cons, Cmd.isDraw]
    rw [hcount]
    apply drawsBound_append
    · exact (drawsBound_bodies K N hN K (Nat.le_refl K)).1
    · exact drawsBound_of_no_draw _ _ (by simp [Cmd.isDraw])

/-- C8: when `K` divides `objectNum`, the command stream submitted by a full frame starts
with `startRendering` and ends with `finishRendering`; every draw call lies strictly
between them, is `DrawIndexedInstanced(6, 1, 0, 0, 0)`, and comes right after the binding
of the per-object record whose index is the number of draws made before it; the object
indices bound along the stream are `0, 1, …, objectNum - 1` in this order, and there are
`objectNum` draws. -/
theorem C8_frame_stream (K N : Nat) (hN : N < u32) (hdvd : K ∣ N)
    (inp : FrameInput) (s : State) (h : inp.isEnd = false)
    (hperm : inp.order.Perm (List.range K)) (hl : s.commandLists.length = K) :
    ∃ batch, (appUpdate K N inp s).2.queue = s.queue ++ [batch] ∧
      (stream batch).head? = some .startRendering ∧
      (stream batch).getLast? = some .finishRendering ∧
      (∀ pre c post, stream batch = pre ++ c :: post → c.isDraw = true →
        c = .drawIndexedInstanced 6 1 0 0 0 ∧ post ≠ [] ∧
        ∃ pre1, pre1 ≠ [] ∧
          pre = pre1 ++ [.constantBufferSetToCommandList (pre.countP Cmd.isDraw)]) ∧
      boundIndices (stream batch) = List.range N ∧
      (stream batch).countP Cmd.isDraw = N := by
  have hmul : K * (N / K) = N := Nat.mul_div_cancel' hdvd
  have hhead : (stream (frameBatch K N)).head? = some .startRendering := by
    rw [stream_frameBatch]; rfl
  have hlast : (stream (frameBatch K N)).getLast? = some .finishRendering := by
    rw [stream_frameBatch]
    have e : Cmd.startRendering :: (((List.range K).map (bodyRecording K N)).flatten ++
        [Cmd.finishRendering]) = (Cmd.startRendering ::
        ((List.range K).map (bodyRecording K N)).flatten) ++ [Cmd.finishRendering] := rfl
    rw [e, List.getLast?_append]
    rfl
  refine ⟨frameBatch K N, ?_, hhead, hlast, ?_, ?_, ?_⟩
  · rw [appUpdate_frame_perm K N inp s h hperm hl]
  · intro pre c post hsplit hc
    obtain ⟨e, pre1, hp⟩ := drawsBound_stream K N hN pre c post hsplit hc
    rw [Nat.zero_add] at hp
    refine ⟨e, ?_, pre1, ?_, hp⟩
    · intro hpost
      subst hpost
      rw [hsplit, List.getLast?_append] at hlast
      simp only [List.getLast?_singleton, Option.or] at hlast
      rw [e] at hlast
      simp at hlast
    · intro hpre1
      subst hpre1
      rw [hsplit, hp] at hhead
      simp at hhead
  · rw [boundIndices_stream K N hN, hmul]
  · rw [countP_isDraw_stream K N hN, hmul]

/-- Witness of C8 at the constants of the program. -/
theorem C8_frame_stream_witness :
    24000 < u32 ∧ 4 ∣ 24000 ∧ (sampleEnv 0).isEnd = false ∧
    (sampleEnv 0).order.Perm (List.range 4) ∧ (State.init 4).commandLists.length = 4 ∧
    ∃ batch, (appUpdate 4 24000 (sampleEnv 0) (State.init 4)).2.queue =
        (State.init 4).queue ++ [batch] ∧
      (stream batch).head? = some .startRendering ∧
      (stream batch).getLast? = some .finishRendering ∧
      (∀ pre c post, stream batch = pre ++ c :: post → c.isDraw = true →
        c = .drawIndexedInstanced 6 1 0 0 0 ∧ post ≠ [] ∧
        ∃ pre1, pre1 ≠ [] ∧
          pre = pre1 ++ [.constantBufferSetToCommandList (pre.countP Cmd.isDraw)]) ∧
      boundIndices (stream batch) = List.range 24000 ∧
      (stream batch).countP Cmd.isDraw = 24000 :=
  ⟨by decide, by decide, by decide, by decide, by decide,
    C8_frame_stream 4 24000 (by decide) (by decide) (sampleEnv 0) (State.init 4)
      (by decide) (by decide) (by decide)⟩

/-! ## Constant buffer initialisation and index range -/

theorem initLoop_eq (e : Nat) (he : e < u32) :
    ∀ (n i : Nat) (w : List Nat), i + n ≤ e →
      initLoop e n i w = w ++ List.range' i n := by
  intro n
  induction n with
  | zero => intro i w _; simp [initLoop]
  | succ n ih =>
    intro i w h
    have hlt : i < e := by omega
    have hm : (i + 1) % u32 = i + 1 := Nat.mod_eq_of_lt (by omega)
    simp only [initLoop, hlt, if_true, hm]
    rw [ih _ _ (by omega), List.range'_succ]
    simp

/-- The bound `e - i` on the iterations of the start-up loop is never the reason the
loop stops. -/
theorem initLoop_fuel (e : Nat) (he : e < u32) :
    ∀ (fuel i : Nat) (w : List Nat), e - i ≤ fuel →
      initLoop e fuel i w = initLoop e (e - i) i w := by
  intro fuel
  induction fuel with
  | zero =>
    intro i w h
    have : e - i = 0 := by omega
    rw [this]
  | succ f ih =>
    intro i w h
    by_cases hlt : i < e
    · have h1 : e - i = (e - (i + 1)) + 1 := by omega
      have hm : (i + 1) % u32 = i + 1 := Nat.mod_eq_of_lt (by omega)
      rw [h1]
      simp only [initLoop, hlt, if_true, hm]
      exact ih _ _ (by omega)
    · have : e - i = 0 := by omega
      rw [this]
      simp [initLoop, hlt]

theorem initTask_eq {K N k : Nat} (hN : N < u32) (hk : k < K) (w : List Nat) :
    initTask K N k w = w ++ List.range' (k * (N / K)) (N / K) := by
  unfold initTask
  simp only
  have hle : partStart K N k + (partEnd K N k - partStart K N k) ≤ partEnd K N k := by
    have := part_size hN hk
    have h1 := partStart_eq hN hk
    have h2 := partEnd_eq hN hk
    omega
  rw [initLoop_eq _ (partEnd_lt K N k) _ _ _ hle, part_size hN hk, partStart_eq hN hk]

theorem initConstantBuffer_eq (K N : Nat) (hN : N < u32) (order : List Nat)
    (hlt : ∀ k ∈ order, k < K) (w : List Nat) :
    parallelFor order (initTask K N) w =
      w ++ (order.map (fun k => List.range' (k * (N / K)) (N / K))).flatten := by
  induction order generalizing w with
  | nil => simp [parallelFor]
  | cons k ks ih =>
    have h : parallelFor (k :: ks) (initTask K N) w =
        parallelFor ks (initTask K N) (initTask K N k w) := rfl
    rw [h, ih (fun j hj => hlt j (List.mem_cons_of_mem _ hj)),
      initTask_eq hN (hlt k (List.mem_cons_self _ _))]
    simp

theorem initConstantBuffer_perm (K N : Nat) (hN : N < u32) (order : List Nat)
    (hperm : order.Perm (List.range K)) :
    (initConstantBuffer K N order).Perm (List.range (K * (N / K))) := by
  unfold initConstantBuffer
  rw [initConstantBuffer_eq K N hN order
    (fun k hk => List.mem_range.1 ((hperm.mem_iff).1 hk)), List.nil_append,
    ← flatten_ranges (N / K) K]
  exact List.Perm.flatten (hperm.map _)

/-- C9: for every `K ≥ 1` and every 32-bit `objectNum`, divisible by `K` or not, the
object indices bound and drawn by the `K` body tasks of a frame are, in submission order,
exactly `0, 1, …, K * (objectNum / K) - 1` (task `k` takes the `objectNum / K` indices
from `k * (objectNum / K)` on), each once and each below `objectNum`; the start-up loop
writes the same indices; the `objectNum mod K` last objects (fewer than `K`) are left out, and
none is left out exactly when `K` divides `objectNum`. -/
theorem C9_indices_within_capacity (K N : Nat) (hK : 1 ≤ K) (hN : N < u32)
    (inp : FrameInput) (s : State) (h : inp.isEnd = false)
    (hperm : inp.order.Perm (List.range K)) (hl : s.commandLists.length = K)
    (order0 : List Nat) (hperm0 : order0.Perm (List.range K)) :
    (∃ batch, (appUpdate K N inp s).2.queue = s.queue ++ [batch] ∧
      boundIndices (stream batch) = List.range (K * (N / K)) ∧
      (stream batch).countP Cmd.isDraw = K * (N / K) ∧
      (∀ i, i ∈ boundIndices (stream batch) ↔ i < K * (N / K)) ∧
      (∀ i, i ∈ boundIndices (stream batch) → i < N) ∧
      (boundIndices (stream batch)).Nodup) ∧
    (∀ k, k < K → boundIndices ((appUpdate K N inp s).2.content (.commandLists k)) =
      List.range' (k * (N / K)) (N / K)) ∧
    (initConstantBuffer K N order0).Perm (List.range (K * (N / K))) ∧
    K * (N / K) ≤ N ∧
    N - K * (N / K) = N % K ∧
    N % K < K ∧
    (N % K = 0 ↔ K ∣ N) := by
  have hle : K * (N / K) ≤ N := Nat.mul_div_le N K
  have hmod : N - K * (N / K) = N % K := by
    have := Nat.div_add_mod N K
    omega
  refine ⟨⟨frameBatch K N, ?_, boundIndices_stream K N hN, countP_isDraw_stream K N hN,
    ?_, ?_, ?_⟩, ?_, initConstantBuffer_perm K N hN order0 hperm0, hle, hmod,
    Nat.mod_lt N (by omega), (Nat.dvd_iff_mod_eq_zero ..).symm⟩
  · rw [appUpdate_frame_perm K N inp s h hperm hl]
  · intro i
    rw [boundIndices_stream K N hN, List.mem_range]
  · intro i hi
    rw [boundIndices_stream K N hN, List.mem_range] at hi
    omega
  · rw [boundIndices_stream K N hN]
    exact List.nodup_range _
  · intro k hk
    rw [appUpdate_frame_perm K N inp s h hperm hl]
    simp only [State.content, List.getD_eq_getElem?_getD, List.getElem?_map,
      List.getElem?_range hk, Option.map_some', Option.getD_some]
    exact boundIndices_bodyRecording hN hk

/-- Witness of C9: four tasks and ten objects, so that two objects are left out. -/
theorem C9_indices_within_capacity_witness :
    1 ≤ 4 ∧ 10 < u32 ∧ (sampleEnv 0).isEnd = false ∧
    (sampleEnv 0).order.Perm (List.range 4) ∧ (State.init 4).commandLists.length = 4 ∧
    ([3, 1, 0, 2] : List Nat).Perm (List.range 4) ∧
    (∃ batch, (appUpdate 4 10 (sampleEnv 0) (State.init 4)).2.queue =
        (State.init 4).queue ++ [batch] ∧
      boundIndices (stream batch) = List.range (4 * (10 / 4)) ∧
      (stream batch).countP Cmd.isDraw = 4 * (10 / 4) ∧
      (∀ i, i ∈ boundIndices (stream batch) ↔ i < 4 * (10 / 4)) ∧
      (∀ i, i ∈ boundIndices (stream batch) → i < 10) ∧
      (boundIndices (stream batch)).Nodup) ∧
    (initConstantBuffer 4 10 [3, 1, 0, 2]).Perm (List.range (4 * (10 / 4))) ∧
    10 - 4 * (10 / 4) = 10 % 4 :=
  have hw := C9_indices_within_capacity 4 10 (by decide) (by decide) (sampleEnv 0)
    (State.init 4) (by decide) (by decide) (by decide) [3, 1, 0, 2] (by decide)
  ⟨by decide, by decide, by decide, by decide, by decide, by decide, hw.1, hw.2.2.1,
    hw.2.2.2.2.1⟩

/-! ## `TimeContainer::add` and `TimeContainer::remove` -/

theorem cstr_eq (tag : String) (hnul : Char.ofNat 0 ∉ tag.data) : cstr tag = tag := by
  unfold cstr
  have h : tag.data.takeWhile (fun ch => ch != Char.ofNat 0) = tag.data := by
    rw [List.takeWhile_eq_self_iff]
    intro ch hch
    have : ch ≠ Char.ofNat 0 := fun e => hnul (e ▸ hch)
    simpa using this
  rw [h]

theorem find_append {α : Type} (c d : TimeContainer α) (key : String) :
    TimeContainer.find (c ++ d) key =
      match TimeContainer.find c key with
      | some v => some v
      | none => TimeContainer.find d key := by
  induction c with
  | nil => simp [TimeContainer.find]
  | cons p c ih =>
    obtain ⟨k, v⟩ := p
    by_cases hk : k = key
    · simp [TimeContainer.find, hk]
    · simp [TimeContainer.find, hk, ih]

theorem find_eq_none_iff {α : Type} (c : TimeContainer α) (key : String) :
    TimeContainer.find c key = none ↔ key ∉ c.map Prod.fst := by
  induction c with
  | nil => simp [TimeContainer.find]
  | cons p c ih =>
    obtain ⟨k, v⟩ := p
    by_cases hk : k = key
    · simp [TimeContainer.find, hk]
    · have hk2 : ¬ key = k := fun e => hk e.symm
      simp [TimeContainer.find, hk, hk2, ih]

theorem find_addAt {α : Type} [Add α] (c : TimeContainer α) (tag key : String) (x : α) :
    TimeContainer.find (TimeContainer.addAt c tag x) key =
      if key = tag then (TimeContainer.find c tag).map (fun v => v + x)
      else TimeContainer.find c key := by
  induction c with
  | nil => simp [TimeContainer.addAt, TimeContainer.find]
  | cons p c ih =>
    obtain ⟨k, v⟩ := p
    by_cases hk : k = tag
    · subst hk
      by_cases hkey : key = k
      · subst hkey; simp [TimeContainer.addAt, TimeContainer.find]
      · have h2 : ¬ k = key := fun e => hkey e.symm
        simp [TimeContainer.addAt, TimeContainer.find, hkey, h2]
    · by_cases hkey : key = tag
      · subst hkey
        simp [TimeContainer.addAt, TimeContainer.find, hk, ih]
      · by_cases hkk : k = key
        · simp [TimeContainer.addAt, TimeContainer.find, hk, hkey, hkk]
        · simp [TimeContainer.addAt, TimeContainer.find, hk, hkey, hkk, ih]

theorem keys_addAt {α : Type} [Add α] (c : TimeContainer α) (tag : String) (x : α) :
    (TimeContainer.addAt c tag x).map Prod.fst = c.map Prod.fst := by
  induction c with
  | nil => rfl
  | cons p c ih =>
    obtain ⟨k, v⟩ := p
    by_cases hk : k = tag
    · simp [TimeContainer.addAt, hk]
    · simp [TimeContainer.addAt, hk, ih]

/-- What `find` returns after `add`, for a tag without NUL. -/
theorem find_add {α : Type} [Add α] (c : TimeContainer α) (tag : String)
    (hnul : Char.ofNat 0 ∉ tag.data) (x : α) (key : String) :
    TimeContainer.find (c.add tag x) key =
      if key = tag then
        (match TimeContainer.find c tag with
          | none => some x
          | some old => some (old + x))
      else TimeContainer.find c key := by
  unfold TimeContainer.add
  rw [cstr_eq tag hnul]
  cases hf : TimeContainer.find c tag with
  | none =>
    simp only [TimeContainer.insert, hf]
    rw [find_append]
    by_cases hkey : key = tag
    · subst hkey; simp [hf, TimeContainer.find]
    · have h2 : ¬ tag = key := fun e => hkey e.symm
      simp only [hkey, if_false]
      cases TimeContainer.find c key <;> simp [TimeContainer.find, h2]
  | some old =>
    simp only
    rw [find_addAt]
    by_cases hkey : key = tag
    · simp [hkey, hf]
    · simp [hkey]

theorem length_add {α : Type} [Add α] (c : TimeContainer α) (tag : String)
    (hnul : Char.ofNat 0 ∉ tag.data) (x : α) :
    (c.add tag x).length =
      match TimeContainer.find c tag with
      | none => c.length + 1
      | some _ => c.length := by
  unfold TimeContainer.add
  rw [cstr_eq tag hnul]
  cases hf : TimeContainer.find c tag with
  | none => simp [TimeContainer.insert, hf]
  | some old =>
    have := congrArg List.length (keys_addAt c tag x)
    simpa using this

theorem keyed_add {α : Type} [Add α] (c : TimeContainer α) (hc : Keyed c) (tag : String)
    (hnul : Char.ofNat 0 ∉ tag.data) (x : α) : Keyed (c.add tag x) := by
  unfold TimeContainer.add Keyed
  rw [cstr_eq tag hnul]
  cases hf : TimeContainer.find c tag with
  | none =>
    simp only [TimeContainer.insert, hf, List.map_append, List.map_cons, List.map_nil]
    rw [List.nodup_append]
    refine ⟨hc, by simp, ?_⟩
    intro a ha hb
    simp only [List.mem_singleton] at hb
    subst hb
    exact (find_eq_none_iff c a).1 hf ha
  | some old =>
    simp only
    rw [keys_addAt]
    exact hc

theorem find_erase {α : Type} (c : TimeContainer α) (tag key : String) :
    TimeContainer.find (c.erase tag) key =
      if key = tag then none else TimeContainer.find c key := by
  induction c with
  | nil => simp [TimeContainer.erase, TimeContainer.find]
  | cons p c ih =>
    obtain ⟨k, v⟩ := p
    unfold TimeContainer.erase at ih ⊢
    by_cases hk : k = tag
    · subst hk
      by_cases hkey : key = k
      · subst hkey
        simp [List.filter_cons, ih]
      · have h2 : ¬ k = key := fun e => hkey e.symm
        simp [List.filter_cons, ih, hkey, TimeContainer.find, h2]
    · by_cases hkk : k = key
      · have h3 : ¬ key = tag := fun e => hk (hkk.trans e)
        simp [List.filter_cons, hk, TimeContainer.find, hkk, h3]
      · simp [List.filter_cons, hk, TimeContainer.find, hkk, ih]

theorem length_erase {α : Type} (c : TimeContainer α) (hc : Keyed c) (tag : String) :
    (c.erase tag).length + (if (TimeContainer.find c tag).isSome then 1 else 0) = c.length := by
  induction c with
  | nil => simp [TimeContainer.erase, TimeContainer.find]
  | cons p c ih =>
    obtain ⟨k, v⟩ := p
    have hc2 : Keyed c := (List.nodup_cons.1 hc).2
    have hnot : k ∉ c.map Prod.fst := (List.nodup_cons.1 hc).1
    have ih2 := ih hc2
    unfold TimeContainer.erase at ih2 ⊢
    by_cases hk : k = tag
    · subst hk
      have hnone : TimeContainer.find c k = none := (find_eq_none_iff c k).2 hnot
      rw [hnone] at ih2
      simp [List.filter_cons, TimeContainer.find] at ih2 ⊢
      exact ih2
    · simp [List.filter_cons, hk, TimeContainer.find] at ih2 ⊢
      omega

theorem accumulate_none {α : Type} [Add α] (xs : List α) :
    accumulate none xs =
      match xs with
      | [] => none
      | a :: as => some (as.foldl (fun u v => u + v) a) := by
  have hsome : ∀ (ys : List α) (v : α),
      accumulate (some v) ys = some (ys.foldl (fun u w => u + w) v) := by
    intro ys
    induction ys with
    | nil => intro v; rfl
    | cons y ys ih => intro v; simp [accumulate, ih]
  cases xs with
  | nil => rfl
  | cons a as => simp [accumulate, hsome]

theorem addAll_spec {α : Type} [Add α] (calls : List (String × α))
    (hnul : ∀ p ∈ calls, Char.ofNat 0 ∉ p.1.data) (t : String) :
    ∀ c : TimeContainer α, Keyed c →
      Keyed (c.addAll calls) ∧
      TimeContainer.find (c.addAll calls) t =
        accumulate (TimeContainer.find c t) (amounts calls t) := by
  induction calls with
  | nil =>
    intro c hc
    refine ⟨hc, ?_⟩
    have h0 : c.addAll [] = c := rfl
    have h1 : amounts ([] : List (String × α)) t = [] := rfl
    rw [h0, h1]
    cases TimeContainer.find c t <;> rfl
  | cons p ps ih =>
    intro c hc
    have hp : Char.ofNat 0 ∉ p.1.data := hnul p (List.mem_cons_self _ _)
    have hstep : c.addAll (p :: ps) = (c.add p.1 p.2).addAll ps := rfl
    obtain ⟨hk, hf⟩ := ih (fun q hq => hnul q (List.mem_cons_of_mem _ hq)) (c.add p.1 p.2)
      (keyed_add c hc p.1 hp p.2)
    rw [hstep]
    refine ⟨hk, ?_⟩
    rw [hf, find_add c p.1 hp p.2 t]
    by_cases ht : t = p.1
    · subst ht
      cases hfc : TimeContainer.find c p.1 <;>
        simp [amounts, List.filter_cons, accumulate]
    · have h2 : ¬ p.1 = t := fun e => ht e.symm
      simp [amounts, List.filter_cons, ht, h2]

/-- C10: for a map with distinct keys, a tag without NUL and any amount `x`, `add(tag, x)`
stores `x` under `tag` if the tag was absent (one entry more) and `old + x` if it held
`old` (same number of entries), keeps every other tag and keeps the keys distinct; after
any sequence of `add` calls on the empty container, each tag holds the amounts added
under it, summed in call order (nothing if there was none); `remove(tag)` deletes the
entry of `tag` and no other.  The value type and its `+` are arbitrary, so the `double`
addition of the source is an instance. -/
theorem C10_add_accumulates {α : Type} [Add α] (c : TimeContainer α) (hc : Keyed c)
    (tag : String) (hnul : Char.ofNat 0 ∉ tag.data) (x : α) :
    (c.find tag = none →
      (c.add tag x).find tag = some x ∧ (c.add tag x).length = c.length + 1) ∧
    (∀ old, c.find tag = some old →
      (c.add tag x).find tag = some (old + x) ∧ (c.add tag x).length = c.length) ∧
    (∀ key, key ≠ tag → (c.add tag x).find key = c.find key) ∧
    Keyed (c.add tag x) ∧
    (∀ calls : List (String × α), (∀ p ∈ calls, Char.ofNat 0 ∉ p.1.data) → ∀ t,
      Keyed ((TimeContainer.empty : TimeContainer α).addAll calls) ∧
      ((TimeContainer.empty : TimeContainer α).addAll calls).find t =
        match amounts calls t with
        | [] => none
        | a :: as => some (as.foldl (fun u v => u + v) a)) ∧
    (c.remove tag).find tag = none ∧
    (∀ key, key ≠ tag → (c.remove tag).find key = c.find key) ∧
    (c.remove tag).length + (if (c.find tag).isSome then 1 else 0) = c.length := by
  refine ⟨?_, ?_, ?_, keyed_add c hc tag hnul x, ?_, ?_, ?_, ?_⟩
  · intro h
    have h1 := find_add c tag hnul x tag
    have h2 := length_add c tag hnul x
    rw [h] at h1 h2
    exact ⟨by simpa using h1, by simpa using h2⟩
  · intro old h
    have h1 := find_add c tag hnul x tag
    have h2 := length_add c tag hnul x
    rw [h] at h1 h2
    exact ⟨by simpa using h1, by simpa using h2⟩
  · intro key hkey
    rw [find_add c tag hnul x key, if_neg hkey]
  · intro calls hcalls t
    have hempty : Keyed (TimeContainer.empty : TimeContainer α) := by
      simp [Keyed, TimeContainer.empty]
    obtain ⟨hk, hf⟩ := addAll_spec calls hcalls t TimeContainer.empty hempty
    refine ⟨hk, ?_⟩
    rw [hf, ← accumulate_none]
    rfl
  · unfold TimeContainer.remove
    rw [cstr_eq tag hnul, find_erase]
    simp
  · intro key hkey
    unfold TimeContainer.remove
    rw [cstr_eq tag hnul, find_erase, if_neg hkey]
  · unfold TimeContainer.remove
    rw [cstr_eq tag hnul]
    exact length_erase c hc tag

/-- Witness of C10: adding `5` under the tag `"draw"` to a map that holds `2` there. -/
theorem C10_add_accumulates_witness :
    Keyed ([("draw", 2), ("wait", 7)] : TimeContainer Int) ∧
    Char.ofNat 0 ∉ ("draw" : String).data ∧
    TimeContainer.find (TimeContainer.add ([("draw", 2), ("wait", 7)] : TimeContainer Int)
      "draw" 5) "draw" = some (2 + 5) ∧
    (TimeContainer.add ([("draw", 2), ("wait", 7)] : TimeContainer Int) "draw" 5).length =
      2 :=
  have h1 : Keyed ([("draw", 2), ("wait", 7)] : TimeContainer Int) := by
    simp [Keyed]
  have h2 : Char.ofNat 0 ∉ ("draw" : String).data := by decide
  ⟨h1, h2, (C10_add_accumulates [("draw", 2), ("wait", 7)] h1 "draw" h2 5).2.1 2 (by
    simp [TimeContainer.find])⟩

end Dx12Multithread
